import Mathlib

/-!
Verification of the matching-and-reorganization engine of TheOrganizer.

This file shallowly embeds the engine's core algorithms:

* `normalize.py`   — company-name normalization (`CompanyNameNormalizer`);
* `core.py`        — fuzzy matching (`CompanyMatcher`), date extraction
                     (`DateExtractor`);
* `company_config.py` — per-company validity rules (`CompanyConfig.is_valid_match`);
* `io_ops.py`      — file moves, collision resolution, operation logging and
                     the undo engine (`FileOrganizer`, `UndoManager`).

Modelling conventions:

* Python strings are modelled over the ASCII fragment: `str.lower` is ASCII
  lowercasing, the regex class `\w` is ASCII alphanumeric plus underscore,
  `\s` is the six ASCII whitespace characters.  Unicode NFD decomposition
  followed by dropping combining marks (category Mn) is the identity on this
  fragment, so that pipeline stage is omitted.
* Python floats returned by the rapidfuzz scorers are modelled as exact
  rationals (`Rat`); the scorers themselves (`fuzz.ratio`,
  `fuzz.partial_ratio`, `fuzz.token_sort_ratio`, `fuzz.token_set_ratio`) are
  third-party library functions modelled from their documented semantics
  (normalized indel similarity, best sliding-window alignment, and the
  classic token-sort / token-set constructions).
* The filesystem is modelled as explicit lists of file paths and directory
  paths (a path being its list of segments); `shutil.move` on a file becomes
  erase-and-append, `mkdir(parents=True, exist_ok=True)` adds all prefixes
  of a directory path.  OS-level failures (permissions, disk full) are not
  modelled, so the only move failures that can occur in the model are the
  ones decided by the code itself: a missing source and collision-resolution
  exhaustion.
* Bounded loops from the source are written with explicit fuel equal to the
  source's own bound (collision resolution: 9999 attempts) or to an upper
  bound on the number of steps (the legal-form substitution scanner consumes
  at least one character per step, so `length + 1` fuel is never exhausted).
-/

namespace Organizer

/-! ## ASCII character classes (Python `\w`, `\s`, `str.lower`, `str.strip`) -/

/-- ASCII model of the Python regex class `\w` (with `re.UNICODE` restricted
to ASCII): letters, digits and underscore. -/
def wordChar (c : Char) : Bool := c.isAlphanum || c = '_'

/-- ASCII model of the Python regex class `\s` / `str.strip` whitespace. -/
def pyWs (c : Char) : Bool :=
  c = ' ' || c = '\t' || c = '\n' || c = '\r' || c = Char.ofNat 11 || c = Char.ofNat 12

/-- `str.lower` on the ASCII fragment. -/
def pyLower (l : List Char) : List Char := l.map Char.toLower

/-- Drop trailing whitespace (the right half of `str.strip`). -/
def dropTrailWs (l : List Char) : List Char := (l.reverse.dropWhile pyWs).reverse

/-- `str.strip()` on character lists. -/
def pyStripChars (l : List Char) : List Char := dropTrailWs (l.dropWhile pyWs)

/-- Worker for `collapseWs`: `prevWs` records whether the previous character
was whitespace (in which case further whitespace is absorbed into the single
space already emitted). -/
def collapseGo (prevWs : Bool) : List Char → List Char
  | [] => []
  | c :: cs =>
    if pyWs c then
      if prevWs then collapseGo true cs else ' ' :: collapseGo true cs
    else c :: collapseGo false cs

/-- `re.sub(r'\s+', ' ', ·)`: every maximal whitespace run becomes one space. -/
def collapseWs (l : List Char) : List Char := collapseGo false l

/-- `re.sub(r'[^\w\s]', ' ', ·)`: non-word, non-whitespace characters become
spaces. -/
def subSpecial (l : List Char) : List Char :=
  l.map fun c => if wordChar c || pyWs c then c else ' '

/-! ## Legal-entity suffix substitution (`COMPANY_FORMS`, `_normalize_company_forms`)

`_compile_patterns` builds the alternation
`\b(form1|form2|...)\b` with the forms sorted by length, longest first
(Python's sort is stable, so forms of equal length keep the dictionary's
insertion order).  The list below is exactly that sorted order. -/

/-- `COMPANY_FORMS`, sorted by key length descending (stable), paired with
the canonical short form each key is rewritten to. -/
def formsList : List (String × String) :=
  [("incorporated", "inc"), ("corporation", "corp"),
   ("g.m.b.h.", "gmbh"), ("s.a.r.l.", "sarl"),
   ("limited", "ltd"),
   ("s.p.a.", "spa"), ("s.r.l.", "srl"), ("s.a.s.", "sas"), ("s.n.c.", "snc"),
   ("l.l.c.", "llc"),
   ("s.p.a", "spa"), ("s.r.l", "srl"), ("s.a.s", "sas"), ("s.n.c", "snc"),
   ("corp.", "corp"), ("l.l.c", "llc"),
   ("s.s.", "ss"), ("ltd.", "ltd"), ("inc.", "inc"), ("corp", "corp"),
   ("gmbh", "gmbh"), ("a.g.", "ag"), ("s.a.", "sa"), ("sarl", "sarl"),
   ("b.v.", "bv"), ("n.v.", "nv"),
   ("spa", "spa"), ("srl", "srl"), ("sas", "sas"), ("snc", "snc"),
   ("s.s", "ss"), ("ltd", "ltd"), ("inc", "inc"), ("llc", "llc"),
   ("ss", "ss"), ("ag", "ag"), ("sa", "sa"), ("bv", "bv"), ("nv", "nv")]

/-- `formsList` as character lists. -/
def formsKeys : List (List Char × List Char) :=
  formsList.map fun p => (p.1.data, p.2.data)

/-- Word boundary `\b` between the last character of the matched key `k` and
the following text `rest`: exactly one of the two sides is a word character
(end of string counts as non-word). -/
def bdryAfter (k rest : List Char) : Bool :=
  wordChar (k.getLastD ' ') != (match rest with | [] => false | c :: _ => wordChar c)

/-- Try the alternation's branches in order at the current position: a branch
`(k, v)` fires when `k` is a prefix of the text and the trailing `\b` holds
(the leading `\b` is checked by the caller via `prevW`).  Returns the
replacement, the wordness of the key's last character (the scan resumes after
the matched span of the original text, so this is the `\b` context for what
follows), and the remaining text. -/
def tryKeys : List (List Char × List Char) → List Char → Option (List Char × Bool × List Char)
  | [], _ => none
  | (k, v) :: ks, l =>
    if !k.isEmpty && k.isPrefixOf l && bdryAfter k (l.drop k.length) then
      some (v, wordChar (k.getLastD ' '), l.drop k.length)
    else tryKeys ks l

/-- Left-to-right, non-overlapping `re.sub` scan for the legal-form
alternation.  `prevW` is the wordness of the previous character of the
original text (`false` at the start of the string), which decides the leading
`\b`; all keys start with a letter, so a match is only possible when `prevW`
is false.  Fuel: each step consumes at least one character. -/
def substFormsGo : Nat → Bool → List Char → List Char
  | 0, _, l => l
  | _ + 1, _, [] => []
  | fuel + 1, prevW, c :: cs =>
    if prevW then c :: substFormsGo fuel (wordChar c) cs
    else
      match tryKeys formsKeys (c :: cs) with
      | some (v, lw, rest) => v ++ substFormsGo fuel lw rest
      | none => c :: substFormsGo fuel (wordChar c) cs

/-- `_normalize_company_forms`. -/
def substForms (l : List Char) : List Char := substFormsGo (l.length + 1) false l

/-! ## `CompanyNameNormalizer.normalize` -/

/-- `normalize` on character lists: lowercase, strip, (NFD + drop combining
marks: identity on ASCII), legal-form substitution, special characters to
spaces, whitespace collapse, final strip. -/
def normChars (l : List Char) : List Char :=
  pyStripChars (collapseWs (subSpecial (substForms (pyStripChars (pyLower l)))))

/-- `CompanyNameNormalizer.normalize`. -/
def normalize (s : String) : String := String.mk (normChars s.data)

/-- `str.strip()` on strings. -/
def pyStripStr (s : String) : String := String.mk (pyStripChars s.data)

/-! ## Canonical form of `normalize` output

`normalize` emits tokens of lowercase word characters separated by single
spaces.  The following executable vocabulary names that shape: `splitWs`
splits a text into its maximal whitespace-free runs (Python `str.split()`),
`joinToks` joins tokens with single spaces, `formFind` is the
first-matching-key lookup in the legal-form table restricted to a whole
token, and `noDoubleSpace` / `noEdgeSpace` are the whitespace invariants of
the output. -/

/-- A character `normalize` can emit inside a token: a word character that
is not an uppercase letter. -/
def lowWord (c : Char) : Bool := wordChar c && !c.isUpper

/-- A token the normalizer can emit: nonempty, all `lowWord`. -/
def goodTok (t : List Char) : Bool := !t.isEmpty && t.all lowWord

/-- Join tokens with single separating spaces. -/
def joinToks : List (List Char) → List Char
  | [] => []
  | [t] => t
  | t :: ts => t ++ ' ' :: joinToks ts

/-- Worker for `splitWs`; `cur` holds the current run, reversed. -/
def splitWsGo (cur : List Char) : List Char → List (List Char)
  | [] => if cur.isEmpty then [] else [cur.reverse]
  | c :: cs =>
    if pyWs c then
      if cur.isEmpty then splitWsGo [] cs else cur.reverse :: splitWsGo [] cs
    else splitWsGo (c :: cur) cs

/-- The maximal whitespace-free runs of a text (Python `str.split()`). -/
def splitWs (l : List Char) : List (List Char) := splitWsGo [] l

/-- First key of the (length-sorted) legal-form table equal to the whole
token, if any, with its replacement. -/
def formFind (t : List Char) : Option (List Char) :=
  (formsKeys.find? fun p => p.1 == t).map fun p => p.2

/-- The per-token action of the legal-form substitution on canonical text:
rewrite a token that is itself a (dot-free) form, keep anything else. -/
def formApplyTok (t : List Char) : List Char := (formFind t).getD t

/-- No two consecutive spaces. -/
def noDoubleSpace : List Char → Bool
  | c1 :: c2 :: rest => !(c1 == ' ' && c2 == ' ') && noDoubleSpace (c2 :: rest)
  | _ => true

/-- Neither the first nor the last character is a space. -/
def noEdgeSpace (l : List Char) : Bool :=
  !(l.headD 'a' == ' ') && !(l.getLastD 'a' == ' ')

/-! ## Token extraction from filenames
(`CompanyNameNormalizer.extract_company_names_from_filename`) -/

/-- `filename.rsplit('.', 1)[0]`: everything before the last dot (the whole
string when there is no dot). -/
def dropExt (l : List Char) : List Char :=
  if l.contains '.' then ((l.reverse.dropWhile (fun c => c ≠ '.')).drop 1).reverse else l

/-- Consume exactly `k` digits, returning the remaining text. -/
def exactDigitsChk : Nat → List Char → Option (List Char)
  | 0, l => some l
  | _ + 1, [] => none
  | k + 1, c :: cs => if c.isDigit then exactDigitsChk k cs else none

/-- The slash-or-dash separator class of the date regexes. -/
def isSepChar (c : Char) : Bool := c = '/' || c = '-'

/-- Anchored `^\d{1,2} sep \d{1,2} sep \d{2,4}$ with sep one of slash, dash`. -/
def fullDatePat1 (l : List Char) : Bool :=
  [1, 2].any fun a => [1, 2].any fun b => [2, 3, 4].any fun cl =>
    match exactDigitsChk a l with
    | some (s1 :: r1) =>
      isSepChar s1 &&
        (match exactDigitsChk b r1 with
         | some (s2 :: r2) =>
           isSepChar s2 && (match exactDigitsChk cl r2 with
             | some [] => true
             | _ => false)
         | _ => false)
    | _ => false

/-- Anchored `^\d{4} sep \d{1,2} sep \d{1,2}$ with sep one of slash, dash`. -/
def fullDatePat2 (l : List Char) : Bool :=
  [1, 2].any fun a => [1, 2].any fun b =>
    match exactDigitsChk 4 l with
    | some (s1 :: r1) =>
      isSepChar s1 &&
        (match exactDigitsChk a r1 with
         | some (s2 :: r2) =>
           isSepChar s2 && (match exactDigitsChk b r2 with
             | some [] => true
             | _ => false)
         | _ => false)
    | _ => false

/-- Strip one leading `+`/`-` sign. -/
def stripSign (l : List Char) : List Char :=
  match l with
  | c :: cs => if c = '+' || c = '-' then cs else c :: cs
  | [] => []

/-- An optional trailing float exponent: empty, or `e`/`E`, optional sign,
one or more digits. -/
def expOk (l : List Char) : Bool :=
  match l with
  | [] => true
  | e :: rest =>
    (e = 'e' || e = 'E') &&
      (let r := stripSign rest
       !r.isEmpty && r.all Char.isDigit)

/-- Whether Python's `float(·)` accepts the (already stripped) text: optional
sign, then either a decimal literal with optional fraction and exponent, or
`inf`/`infinity`/`nan` (case-insensitive).  (Underscore digit separators are
not modelled.) -/
def pyFloatOk (l0 : List Char) : Bool :=
  let l := stripSign l0
  let low := l.map Char.toLower
  if low = "inf".data || low = "infinity".data || low = "nan".data then true
  else
    let ip := l.takeWhile Char.isDigit
    let r1 := l.dropWhile Char.isDigit
    if ip.isEmpty then
      match r1 with
      | '.' :: r2 =>
        let fp := r2.takeWhile Char.isDigit
        !fp.isEmpty && expOk (r2.dropWhile Char.isDigit)
      | _ => false
    else
      match r1 with
      | '.' :: r2 => expOk (r2.dropWhile Char.isDigit)
      | _ => expOk r1

/-- `CompanyNameNormalizer._is_date_or_number`. -/
def isDateOrNumber (l : List Char) : Bool :=
  fullDatePat1 l || fullDatePat2 l ||
    (l.length = 8 && l.all Char.isDigit) ||
    (l.length = 6 && l.all Char.isDigit) ||
    (l.length = 4 && l.all Char.isDigit) ||
    (!l.isEmpty && l.all Char.isDigit) ||
    pyFloatOk (l.map fun c => if c = ',' then '.' else c)

/-- `CompanyNameNormalizer.GENERIC_WORDS`. -/
def genericWords : List String :=
  ["area", "zone", "zona", "region", "regione", "city", "citta", "town",
   "place", "posto", "location", "posizione", "site", "sito", "page",
   "pagina", "file", "document", "documento", "report", "rapporto",
   "data", "dati", "info", "information", "informazione", "detail",
   "dettaglio", "item", "elemento", "component", "componente", "module",
   "modulo", "lib", "library", "libreria", "util", "utils", "utility",
   "helper", "support", "supporto", "test", "demo", "example", "esempio",
   "sample", "campione", "template", "modello", "base", "core", "main",
   "index", "home", "root", "src", "source", "dist", "build", "node",
   "modules", "assets", "static", "public", "private", "config",
   "configurazione", "setting", "impostazione", "option", "opzione"]

/-- `CompanyNameNormalizer._is_generic_word`. -/
def isGenericWord (l : List Char) : Bool :=
  (genericWords.map String.data).contains (pyStripChars (pyLower l))

/-- Python `str.split(sep)` for a single-character separator (empty pieces
kept). -/
def splitOnSep (sep : Char) (cur : List Char) : List Char → List (List Char)
  | [] => [cur.reverse]
  | c :: cs =>
    if c = sep then cur.reverse :: splitOnSep sep [] cs
    else splitOnSep sep (c :: cur) cs

/-- `CompanyNameNormalizer.extract_company_names_from_filename`: strip the
extension, normalize, split recursively on `- _ space .`, and keep the
stripped parts of length ≥ 3 that are neither dates/numbers nor generic
words. -/
def extractParts (filename : String) : List String :=
  let nameNoExt := dropExt filename.data
  let normalized := normChars nameNoExt
  let parts :=
    ['-', '_', ' ', '.'].foldl (fun ps sep => ps.flatMap (splitOnSep sep [])) [normalized]
  (((parts.map pyStripChars).filter fun p =>
      3 ≤ p.length && !isDateOrNumber p && !isGenericWord p).map String.mk)

/-! ## The rapidfuzz scorers (modelled)

`fuzz.ratio` is the normalized indel similarity
`100 * 2*lcs(a,b) / (|a| + |b|)` (100 when both strings are empty);
`fuzz.partial_ratio` is the best `ratio` of the shorter string against a
sliding window of its length in the longer one; the token variants apply
`ratio` to whitespace-tokenized, sorted (and, for the set variant, deduplicated
and set-decomposed) reconstructions.  Scores are exact rationals. -/

/-- Python's two-argument `min` (first argument on ties).  Kernel-computable
stand-in for `min` on `Rat` (the library's `Rat.add`/`Rat.mul` are
irreducible, so score arithmetic is done through `Rat.divInt` and plain
`≤`-tests; `rminPy_eq_min` below shows this is ordinary `min`). -/
def rminPy (a b : Rat) : Rat := if a ≤ b then a else b

/-- Python's two-argument `max` (first argument on ties); equals `max`
(`rmaxPy_eq_max` below). -/
def rmaxPy (a b : Rat) : Rat := if b ≤ a then a else b

/-- `q + n` for a natural constant `n`, computed on the numerator
(`scoreAdd_eq` below shows this is ordinary addition). -/
def scoreAdd (q : Rat) (n : Nat) : Rat := Rat.divInt (q.num + n * q.den) q.den

/-- `q - n` for a natural constant `n`, computed on the numerator
(`scoreSub_eq` below shows this is ordinary subtraction). -/
def scoreSub (q : Rat) (n : Nat) : Rat := Rat.divInt (q.num - n * q.den) q.den

/-- One row update of the standard LCS dynamic program: `prev` is the
previous row aligned so that its head is the diagonal entry, `cur` the entry
just computed in the new row. -/
def lcsRowGo (y : Char) : List Char → List Nat → Nat → List Nat
  | [], _, _ => []
  | _ :: _, [], _ => []
  | x :: xs, p :: ps, cur =>
    let v := if x = y then p + 1 else max (ps.headD 0) cur
    v :: lcsRowGo y xs ps v

/-- Length of a longest common subsequence. -/
def lcsLen (xs ys : List Char) : Nat :=
  (ys.foldl (fun row y => 0 :: lcsRowGo y xs row 0)
    (List.replicate (xs.length + 1) 0)).getLastD 0

/-- `fuzz.ratio` (normalized indel similarity, as a rational in 0..100). -/
def fratio (a b : List Char) : Rat :=
  if a.length + b.length = 0 then 100
  else Rat.divInt (100 * (2 * lcsLen a b)) (a.length + b.length)

/-- All contiguous windows of the longer string having the shorter one's
length. -/
def windowsOf (short long : List Char) : List (List Char) :=
  (List.range (long.length - short.length + 1)).map fun i => (long.drop i).take short.length

/-- `fuzz.partial_ratio`: best sliding-window alignment of the shorter
string inside the longer one. -/
def partialRatio (a b : List Char) : Rat :=
  if a.length ≤ b.length then ((windowsOf a b).map (fratio a)).foldl rmaxPy 0
  else ((windowsOf b a).map (fratio b)).foldl rmaxPy 0

/-- `str.split()` worker: `cur` accumulates the current word reversed. -/
def wordsGo (cur : List Char) : List Char → List (List Char)
  | [] => if cur.isEmpty then [] else [cur.reverse]
  | c :: cs =>
    if pyWs c then
      if cur.isEmpty then wordsGo [] cs else cur.reverse :: wordsGo [] cs
    else wordsGo (c :: cur) cs

/-- `str.split()` (whitespace tokenization, empty tokens dropped). -/
def pyWords (l : List Char) : List (List Char) := wordsGo [] l

/-- Join tokens with single spaces. -/
def joinTokens (ts : List (List Char)) : List Char := List.intercalate [' '] ts

/-- Lexicographic comparison of strings by code point (Python `<=` on str). -/
def lexLe : List Char → List Char → Bool
  | [], _ => true
  | _ :: _, [] => false
  | a :: as, b :: bs => if a = b then lexLe as bs else decide (a < b)

/-- Stable insertion into a lexicographically sorted token list. -/
def insertTok (t : List Char) : List (List Char) → List (List Char)
  | [] => [t]
  | u :: us => if lexLe t u then t :: u :: us else u :: insertTok t us

/-- Sort tokens lexicographically (Python `sorted`). -/
def sortToks (ts : List (List Char)) : List (List Char) := ts.foldr insertTok []

/-- Remove adjacent duplicates from a sorted token list (set semantics). -/
def uniqSorted : List (List Char) → List (List Char)
  | [] => []
  | [t] => [t]
  | t :: u :: ts =>
    if t = u then uniqSorted (u :: ts) else t :: uniqSorted (u :: ts)

/-- `fuzz.token_sort_ratio`. -/
def tokenSortRatio (a b : List Char) : Rat :=
  fratio (joinTokens (sortToks (pyWords a))) (joinTokens (sortToks (pyWords b)))

/-- `fuzz.token_set_ratio` (classic token-set construction: compare the
sorted intersection against each side's intersection-plus-difference
reconstruction, and the two reconstructions against each other). -/
def tokenSetRatio (a b : List Char) : Rat :=
  let ta := uniqSorted (sortToks (pyWords a))
  let tb := uniqSorted (sortToks (pyWords b))
  let sect := ta.filter fun t => tb.contains t
  let diffAB := ta.filter fun t => !tb.contains t
  let diffBA := tb.filter fun t => !ta.contains t
  let t0 := joinTokens sect
  let t1 := pyStripChars (t0 ++ ' ' :: joinTokens diffAB)
  let t2 := pyStripChars (t0 ++ ' ' :: joinTokens diffBA)
  rmaxPy (rmaxPy (fratio t0 t1) (fratio t0 t2)) (fratio t1 t2)

/-! ## Company validity rules (`CompanyConfig.is_valid_match`) -/

/-- The per-company rules the configuration layer supplies. -/
structure CompanyRules where
  requiredKeywords : List String
  excludedStandalone : List String
deriving Repr, DecidableEq

/-- Rules lookup (`get_required_keywords` / `get_excluded_standalone` both
default to the empty list for unknown companies). -/
def getRules (cfg : List (String × CompanyRules)) (name : String) : CompanyRules :=
  match cfg.find? (fun p => p.1 == name) with
  | some p => p.2
  | none => ⟨[], []⟩

/-- Python's substring test `needle in hay`. -/
def isSubstr (needle hay : List Char) : Bool :=
  hay.tails.any fun t => needle.isPrefixOf t

/-- `CompanyConfig.is_valid_match`: all the company's required keywords must
appear (lowercased) as substrings of the full text — more precisely, `any` of
them must — and the matched text (lowercased, stripped) must not be one of
the company's excluded standalone words. -/
def isValidMatch (cfg : List (String × CompanyRules))
    (companyName matchedText fullText : String) : Bool :=
  let rules := getRules cfg companyName
  (rules.requiredKeywords.isEmpty ||
      rules.requiredKeywords.any fun kw => isSubstr (pyLower kw.data) (pyLower fullText.data)) &&
    (rules.excludedStandalone.isEmpty ||
      !((rules.excludedStandalone.map fun w => pyLower w.data).contains
          (pyStripChars (pyLower matchedText.data))))

/-! ## `CompanyMatcher` -/

/-- The matcher state: the threshold, the map from company name to its
normalized alias list (`company_aliases`, in insertion order), and the
configuration used by `is_valid_match`. -/
structure Matcher where
  threshold : Rat
  companies : List (String × List String)
  config : List (String × CompanyRules)

/-- The score `find_best_match` computes for one (normalized text, alias)
pair: the maximum of the four rapidfuzz scores, overridden to 100 on exact
equality, with a +10 bonus capped at 100 when either string contains the
other. -/
def pairScore (normText al : List Char) : Rat :=
  let score :=
    rmaxPy (rmaxPy (rmaxPy (fratio normText al) (partialRatio normText al))
        (tokenSortRatio normText al))
      (tokenSetRatio normText al)
  if normText = al then 100
  else if isSubstr al normText || isSubstr normText al then rminPy (scoreAdd score 10) 100
  else score

/-- The `(company, alias)` pairs in the nested iteration order of
`find_best_match`'s two loops. -/
def allPairs (companies : List (String × List String)) : List (String × String) :=
  companies.flatMap fun ca => ca.2.map fun a => (ca.1, a)

/-- One step of `find_best_match`'s best-candidate loop: skip empty aliases;
accept a candidate only if its score strictly exceeds the current best, meets
the threshold, and the company's validity rule passes. -/
def fbmStep (cfg : List (String × CompanyRules)) (threshold : Rat) (normText : String)
    (st : Option String × Rat × String) (p : String × String) : Option String × Rat × String :=
  if p.2 = "" then st
  else
    let score := pairScore normText.data p.2.data
    if st.2.1 < score ∧ threshold ≤ score ∧ isValidMatch cfg p.1 p.2 normText = true then
      (some p.1, score, p.2)
    else st

/-- `CompanyMatcher.find_best_match`. -/
def findBestMatch (m : Matcher) (text : String) : Option String × Rat × String :=
  if m.companies.isEmpty then (none, 0, "")
  else
    let normText := normalize text
    if normText = "" then (none, 0, "")
    else (allPairs m.companies).foldl (fbmStep m.config m.threshold normText) (none, 0, "")

/-- The standalone legal-form set of `_is_valid_single_word_match`. -/
def standaloneCompanyForms : List String :=
  ["spa", "s.p.a", "s.p.a.", "srl", "s.r.l", "s.r.l.",
   "sas", "s.a.s", "s.a.s.", "snc", "s.n.c", "s.n.c.",
   "ltd", "inc", "corp", "llc", "gmbh", "ag", "sa", "bv", "nv"]

/-- `CompanyMatcher._is_valid_single_word_match`: reject standalone legal
forms, generic words, and words shorter than 3 characters. -/
def validSingleWord (word : String) : Bool :=
  let wl := pyStripChars (pyLower word.data)
  !((standaloneCompanyForms.map String.data).contains wl) &&
    !((genericWords.map String.data).contains wl) && 3 ≤ wl.length

/-- Test one candidate text against the matcher, keeping it when it names a
company and clears the threshold (the `if company and score >= threshold`
guard of the extraction tiers). -/
def testText (m : Matcher) (t : String) : Option (String × Rat × String) :=
  match (findBestMatch m t).1 with
  | some c =>
    if m.threshold ≤ (findBestMatch m t).2.1 then
      some (c, (findBestMatch m t).2.1, (findBestMatch m t).2.2)
    else none
  | none => none

/-- The contiguous 2–4 token runs `' '.join(parts[i:j])` of tier 2, in loop
order (`j` ranges over `range(i+2, min(i+5, len(parts)+1))`). -/
def comboTexts (parts : List String) : List String :=
  (List.range parts.length).flatMap fun i =>
    (List.range' (i + 2) (min (i + 5) (parts.length + 1) - (i + 2))).map fun j =>
      String.intercalate " " ((parts.drop i).take (j - i))

/-- Python's `max(match[1] for match in matches)` (callers guarantee the list
is non-empty; 0 for the empty list). -/
def maxScore : List (String × Rat × String) → Rat
  | [] => 0
  | e :: es => es.foldl (fun a x => rmaxPy a x.2.1) e.2.1

/-- One step of the dict-based deduplication: an unseen company is appended,
a seen one is updated in place when the new score is strictly higher. -/
def dedupStep (acc : List (String × Rat × String)) (e : String × Rat × String) :
    List (String × Rat × String) :=
  if acc.any fun x => x.1 == e.1 then
    acc.map fun x => if x.1 == e.1 && decide (x.2.1 < e.2.1) then (x.1, e.2.1, e.2.2) else x
  else acc ++ [e]

/-- The `unique_matches` deduplication (Python dict: key order is first
insertion, values keep the maximum score). -/
def dedupBest (l : List (String × Rat × String)) : List (String × Rat × String) :=
  l.foldl dedupStep []

/-- Stable descending insertion by score (`list.sort(key=score, reverse=True)`
is stable, so equal scores keep their first-insertion order). -/
def insertByScore (e : String × Rat × String) :
    List (String × Rat × String) → List (String × Rat × String)
  | [] => [e]
  | x :: xs => if x.2.1 ≤ e.2.1 then e :: x :: xs else x :: insertByScore e xs

/-- Sort entries by score, descending, stably. -/
def sortByScoreDesc (l : List (String × Rat × String)) : List (String × Rat × String) :=
  l.foldr insertByScore []

/-- Tier 1 of the extraction: the whole-filename match, kept when it names a
company and clears the threshold. -/
def extractTier1 (m : Matcher) (filename : String) : List (String × Rat × String) :=
  match (findBestMatch m filename).1 with
  | some c =>
    if m.threshold ≤ (findBestMatch m filename).2.1 then
      [(c, (findBestMatch m filename).2.1, (findBestMatch m filename).2.2)]
    else []
  | none => []

/-- Tier 2: adjacent 2–4 token runs, tested when there is more than one
token. -/
def extractTier2 (m : Matcher) (parts : List String) : List (String × Rat × String) :=
  if 1 < parts.length then (comboTexts parts).filterMap (testText m) else []

/-- Tier 3: single tokens passing the standalone-validity filter, run only
when no match so far reaches threshold + 5. -/
def extractTier3 (m : Matcher) (parts : List String)
    (matches1 : List (String × Rat × String)) : List (String × Rat × String) :=
  if matches1.isEmpty = true ∨ maxScore matches1 < scoreAdd m.threshold 5 then
    parts.filterMap fun p => if validSingleWord p then testText m p else none
  else []

/-- `CompanyMatcher.extract_company_names_from_filename`: tier 1 tests the
whole filename (returning immediately on a ≥ 95 hit), tier 2 tests runs of
2–4 adjacent tokens, tier 3 tests single tokens only when no match so far
reaches threshold + 5; results are deduplicated by company and sorted by
descending score. -/
def extractFromFilename (m : Matcher) (filename : String) : List (String × Rat × String) :=
  let fb := findBestMatch m filename
  if fb.1.isSome = true ∧ m.threshold ≤ fb.2.1 ∧ 95 ≤ fb.2.1 then
    [(fb.1.getD "", fb.2.1, fb.2.2)]
  else
    let matches1 := extractTier1 m filename ++ extractTier2 m (extractParts filename)
    sortByScoreDesc (dedupBest
      (matches1 ++ extractTier3 m (extractParts filename) matches1))

/-- `Path(file_path).parts` (with any root segment dropped) as produced by
splitting on `/`. -/
def splitPathParts (p : String) : List String :=
  ((splitOnSep '/' [] p.data).filter fun seg => seg ≠ []).map String.mk

/-- `CompanyMatcher.extract_company_names_from_path`: filename matches get a
+15 bonus capped at 100; only when the filename yields nothing are the
directory segments' tokens tested, with a −10 penalty that must still clear
the threshold; results are merged (filename first), deduplicated and sorted
by descending score. -/
def pathTestText (m : Matcher) (part : String) : Option (String × Rat × String) :=
  match (findBestMatch m part).1 with
  | some c =>
    if m.threshold ≤ (findBestMatch m part).2.1 then
      if m.threshold ≤ rmaxPy (scoreSub (findBestMatch m part).2.1 10) 0 then
        some (c, rmaxPy (scoreSub (findBestMatch m part).2.1 10) 0, (findBestMatch m part).2.2)
      else none
    else none
  | none => none

/-- The +15 filename bonus, capped at 100. -/
def boostEntry (e : String × Rat × String) : String × Rat × String :=
  (e.1, rminPy (scoreAdd e.2.1 15) 100, e.2.2)

def extractFromPath (m : Matcher) (filePath : String) : List (String × Rat × String) :=
  let segs := splitPathParts filePath
  let boosted := (extractFromFilename m (segs.getLastD "")).map boostEntry
  let pathMatches :=
    if boosted.isEmpty = true then
      (segs.dropLast.flatMap fun seg => extractParts seg).filterMap (pathTestText m)
    else []
  sortByScoreDesc (dedupBest (boosted ++ pathMatches))

/-! ## `DateExtractor`

The five date regexes are implemented as explicit scanners with Python
`re.search` semantics: leftmost match wins, `\d{1,2}` is greedy with
backtracking, the separator class matches slash or dash.  A pattern's first match is
the only one considered (as with `pattern.search`); if its captures fail the
bounds check or the `datetime.date` constructor raises `ValueError`
(impossible calendar days), the extractor moves on to the next pattern. -/

/-- The result of Python's `datetime.date(year, month, day)` when it does
not raise. -/
structure PyDate where
  year : Nat
  month : Nat
  day : Nat
deriving Repr, DecidableEq

/-- Consume exactly `k` digits, accumulating their value. -/
def takeDigitsVal : Nat → Nat → List Char → Option (Nat × List Char)
  | 0, acc, l => some (acc, l)
  | _ + 1, _, [] => none
  | k + 1, acc, c :: cs =>
    if c.isDigit then takeDigitsVal k (acc * 10 + (c.toNat - 48)) cs else none

/-- Greedy `\d{1,2}` with backtracking: try two digits and the continuation,
then one digit and the continuation. -/
def try12 {α : Type} (cont : Nat → List Char → Option α) (l : List Char) : Option α :=
  let one :=
    match takeDigitsVal 1 0 l with
    | some (v, r) => cont v r
    | none => none
  match takeDigitsVal 2 0 l with
  | some (v, r) =>
    match cont v r with
    | some x => some x
    | none => one
  | none => one

/-- Match attempt for `(\d{4})-(\d{1,2})-(\d{1,2})` at the current position. -/
def p1At (l : List Char) : Option (Nat × Nat × Nat) :=
  match takeDigitsVal 4 0 l with
  | some (y, r1) =>
    match r1 with
    | '-' :: r2 =>
      try12 (fun mo r3 =>
        match r3 with
        | '-' :: r4 => try12 (fun d _ => some (y, mo, d)) r4
        | _ => none) r2
    | _ => none
  | none => none

/-- Match attempt for `(\d{1,2})[sep](\d{1,2})[sep](\d{4})` (sep: slash or
dash); the parser reads it day-month-year. -/
def p2At (l : List Char) : Option (Nat × Nat × Nat) :=
  try12 (fun d r1 =>
    match r1 with
    | s1 :: r2 =>
      if isSepChar s1 then
        try12 (fun mo r3 =>
          match r3 with
          | s2 :: r4 =>
            if isSepChar s2 then
              match takeDigitsVal 4 0 r4 with
              | some (y, _) => some (y, mo, d)
              | none => none
            else none
          | _ => none) r2
      else none
    | _ => none) l

/-- Match attempt for `(\d{4})/(\d{1,2})/(\d{1,2})`. -/
def p3At (l : List Char) : Option (Nat × Nat × Nat) :=
  match takeDigitsVal 4 0 l with
  | some (y, r1) =>
    match r1 with
    | '/' :: r2 =>
      try12 (fun mo r3 =>
        match r3 with
        | '/' :: r4 => try12 (fun d _ => some (y, mo, d)) r4
        | _ => none) r2
    | _ => none
  | none => none

/-- Match attempt for `(\d{8})`, split as `YYYYMMDD`. -/
def p4At (l : List Char) : Option (Nat × Nat × Nat) :=
  match takeDigitsVal 8 0 l with
  | some (v, _) => some (v / 10000, v / 100 % 100, v % 100)
  | none => none

/-- Match attempt for `(\d{1,2})[sep](\d{1,2})[sep](\d{2})`, read as
day-month-year with the two-digit year taken as `2000 + year`. -/
def p5At (l : List Char) : Option (Nat × Nat × Nat) :=
  try12 (fun d r1 =>
    match r1 with
    | s1 :: r2 =>
      if isSepChar s1 then
        try12 (fun mo r3 =>
          match r3 with
          | s2 :: r4 =>
            if isSepChar s2 then
              match takeDigitsVal 2 0 r4 with
              | some (y2, _) => some (2000 + y2, mo, d)
              | none => none
            else none
          | _ => none) r2
      else none
    | _ => none) l

/-- `pattern.search`: try the match attempt at every position, leftmost
first. -/
def searchPat (pat : List Char → Option (Nat × Nat × Nat)) (l : List Char) :
    Option (Nat × Nat × Nat) :=
  l.tails.findSome? pat

/-- The five compiled patterns, in `self.date_patterns` order. -/
def datePatterns : List (List Char → Option (Nat × Nat × Nat)) :=
  [p1At, p2At, p3At, p4At, p5At]

/-- The code's explicit bounds check
`1900 <= year <= 2100 and 1 <= month <= 12 and 1 <= day <= 31`. -/
def boundsOk (y mo d : Nat) : Bool :=
  1900 ≤ y && y ≤ 2100 && 1 ≤ mo && mo ≤ 12 && 1 ≤ d && d ≤ 31

/-- Proleptic-Gregorian leap year (Python `calendar`/`datetime` rule). -/
def isLeapYear (y : Nat) : Bool := y % 4 = 0 && (y % 100 ≠ 0 || y % 400 = 0)

/-- Days in a month (for months 1..12). -/
def daysInMonth (y m : Nat) : Nat :=
  if m = 2 then (if isLeapYear y then 29 else 28)
  else if m = 4 || m = 6 || m = 9 || m = 11 then 30
  else 31

/-- Whether `datetime.date(y, mo, d)` constructs without raising
`ValueError`. -/
def dateCtorOk (y mo d : Nat) : Bool :=
  1 ≤ y && y ≤ 9999 && 1 ≤ mo && mo ≤ 12 && 1 ≤ d && d ≤ daysInMonth y mo

/-- `DateExtractor.extract_date_from_filename`: try the patterns in order;
for the first occurrence each pattern finds, accept it if the bounds check
passes and the `date` constructor does not raise, otherwise fall through to
the next pattern. -/
def extractDateFromFilename (filename : String) : Option PyDate :=
  datePatterns.findSome? fun pat =>
    match searchPat pat filename.data with
    | some (y, mo, d) =>
      if boundsOk y mo d then
        if dateCtorOk y mo d then some ⟨y, mo, d⟩ else none
      else none
    | none => none

/-- The date produced by pattern number `i` alone (match, bounds check and
constructor check); used to state the first-pattern-wins characterization. -/
def nthPatternDate (i : Nat) (filename : String) : Option PyDate :=
  match datePatterns.get? i with
  | some pat =>
    match searchPat pat filename.data with
    | some (y, mo, d) =>
      if boundsOk y mo d && dateCtorOk y mo d then some ⟨y, mo, d⟩ else none
    | none => none
  | none => none

/-- The claim's reading of `extract_date_from_filename`: identical pattern
order and bounds check, but — following the claim's words "with no
calendar-day-count validation beyond these bounds" — no `datetime.date`
constructor check. -/
def extractDateClaimed (filename : String) : Option PyDate :=
  datePatterns.findSome? fun pat =>
    match searchPat pat filename.data with
    | some (y, mo, d) => if boundsOk y mo d then some ⟨y, mo, d⟩ else none
    | none => none

/-! ## Filesystem model and `io_ops`

Paths are lists of segments.  A filesystem is the list of file paths and the
list of directory paths that exist.  `FileOperation` mirrors the dataclass
of `io_ops.py` (the timestamp is an abstract tick; undo never reads it —
the undo protocol reverses file order, it does not re-sort by timestamp). -/

/-- A path, as its list of segments. -/
abbrev FsPath := List String

/-- `OperationType`. -/
inductive OperationType where
  | move
  | copy
  | create_dir
deriving Repr, DecidableEq

/-- `FileOperation`. -/
structure FileOperation where
  operationType : OperationType
  originalPath : FsPath
  newPath : FsPath
  timestamp : Nat
  success : Bool
  errorMessage : String
deriving Repr, DecidableEq

/-- The filesystem: which file paths and directory paths exist. -/
structure FS where
  files : List FsPath
  dirs : List FsPath
deriving Repr, DecidableEq

/-- `Path.exists()`: the path is a file or a directory. -/
def fsExists (g : FS) (p : FsPath) : Prop := p ∈ g.files ∨ p ∈ g.dirs

instance (g : FS) (p : FsPath) : Decidable (fsExists g p) := by
  unfold fsExists; infer_instance

/-- The nonempty prefixes of a path, shortest first. -/
def pathPrefixes (p : FsPath) : List FsPath :=
  (List.range p.length).map fun i => p.take (i + 1)

/-- `mkdir(parents=True, exist_ok=True)`: every prefix of the directory path
comes to exist as a directory (already-existing ones are left alone). -/
def mkdirParents (g : FS) (d : FsPath) : FS :=
  { g with
    dirs := (pathPrefixes d).foldl (fun ds q => if q ∈ ds then ds else ds ++ [q]) g.dirs }

/-- `shutil.move` on a file: the source stops existing, the destination
becomes a file. -/
def fsMove (g : FS) (src dst : FsPath) : FS :=
  { g with files := g.files.erase src ++ [dst] }

/-- `not any(dir_path.iterdir())`: the directory has no strict descendant
among existing paths (in a well-formed filesystem this is exactly "no
immediate child"). -/
def isEmptyDir (g : FS) (d : FsPath) : Prop :=
  ∀ q ∈ g.files ++ g.dirs, ¬(d <+: q ∧ q ≠ d)

instance (g : FS) (d : FsPath) : Decidable (isEmptyDir g d) := by
  unfold isEmptyDir; infer_instance

/-- `FileOrganizer._sanitize_filename`: replace filesystem-invalid
characters with underscores, collapse internal whitespace
(`' '.join(s.split())`), truncate to 200 characters. -/
def sanitizeFilename (s : String) : String :=
  let invalid : List Char := ['<', '>', ':', '"', '/', '\\', '|', '?', '*']
  let repl := s.data.map fun c => if invalid.contains c then '_' else c
  String.mk ((joinTokens (pyWords repl)).take 200)

/-- `pathlib` stem/suffix split of a file name: the suffix starts at the last
dot provided that dot is neither the first nor the last character; otherwise
the suffix is empty. -/
def stemExt (name : List Char) : List Char × List Char :=
  let n := name.length
  match ((List.range n).filter fun i => name.getD i ' ' = '.').getLast? with
  | some i => if 0 < i ∧ i + 1 < n then (name.take i, name.drop i) else (name, [])
  | none => (name, [])

/-- The collision candidate `parent / (stem_counter ++ extension)` for
attempt number `n`. -/
def collisionCand (p : FsPath) (n : Nat) : FsPath :=
  let name := (p.getLastD "").data
  let se := stemExt name
  p.dropLast ++ [String.mk (se.1 ++ '_' :: Nat.toDigits 10 n ++ se.2)]

instance {ε α : Type} [DecidableEq ε] [DecidableEq α] : DecidableEq (Except ε α)
  | .ok a, .ok b =>
    if h : a = b then .isTrue (by rw [h]) else .isFalse (by simp [h])
  | .error a, .error b =>
    if h : a = b then .isTrue (by rw [h]) else .isFalse (by simp [h])
  | .ok _, .error _ => .isFalse (by simp)
  | .error _, .ok _ => .isFalse (by simp)

/-- The collision loop: try counters `n, n+1, ...` while `fuel` attempts
remain; started with fuel 9999 this tries counters 1..9999 and then raises,
exactly like the `counter > 9999` guard of the source. -/
def resolveGo (g : FS) (p : FsPath) : Nat → Nat → Except String FsPath
  | _, 0 => .error "Troppi file con lo stesso nome"
  | n, fuel + 1 =>
    let cand := collisionCand p n
    if fsExists g cand then resolveGo g p (n + 1) fuel
    else .ok cand

/-- `FileOrganizer._resolve_name_collision`: return the path unchanged when
it does not exist or in dry-run mode, else append `_1`, `_2`, … before the
extension until an unused path is found (at most 9999 attempts). -/
def resolveNameCollision (dryRun : Bool) (g : FS) (p : FsPath) : Except String FsPath :=
  if ¬fsExists g p ∨ dryRun = true then .ok p
  else resolveGo g p 1 9999

/-- The outcome of `FileOrganizer.move_file`: the resulting filesystem, the
returned `(success, final_path, error_message)` triple (the empty path
standing for Python's `""`), and the `FileOperation` records appended to the
attached logger. -/
structure MoveResult where
  fs : FS
  ok : Bool
  finalPath : FsPath
  errorMessage : String
  log : List FileOperation
deriving Repr, DecidableEq

/-- `FileOrganizer.move_file`.  A missing source returns failure before any
logging; collision-resolution exhaustion propagates as an exception
(`Except.error`); otherwise the move succeeds (OS-level failures are not
modelled), mutates nothing in dry-run mode, and appends exactly one
successful `move` record when a logger is attached. -/
def moveFile (dryRun loggerAttached : Bool) (g : FS) (sourcePath destDir : FsPath)
    (newFilename : Option String) (ts : Nat) : Except String MoveResult :=
  if ¬fsExists g sourcePath then
    .ok ⟨g, false, [], "File sorgente non trovato", []⟩
  else
    let filename :=
      match newFilename with
      | some nf => nf
      | none => sourcePath.getLastD ""
    match resolveNameCollision dryRun g (destDir ++ [filename]) with
    | .error e => .error e
    | .ok finalPath =>
      let g1 := if dryRun then g else fsMove (mkdirParents g destDir) sourcePath finalPath
      let log :=
        if loggerAttached then [⟨.move, sourcePath, finalPath, ts, true, ""⟩] else []
      .ok ⟨g1, true, finalPath, "", log⟩

/-- `FileOrganizer.create_directory_structure`: build
`base / sanitized-company / sanitized-category / year`, create it (with
parents) unless in dry-run mode, and log a successful `create_dir` record
when a logger is attached (creation cannot fail in the model). -/
def createDirectoryStructure (dryRun loggerAttached : Bool) (g : FS)
    (basePath : FsPath) (companyName year category : String) (ts : Nat) :
    FS × FsPath × List FileOperation :=
  let dirPath := basePath ++ [sanitizeFilename companyName, sanitizeFilename category, year]
  if dryRun then (g, dirPath, [])
  else
    (mkdirParents g dirPath, dirPath,
      if loggerAttached then [⟨.create_dir, [], dirPath, ts, true, ""⟩] else [])

/-- `UndoManager._undo_move_operation`: fail if the moved file is gone or the
original path is occupied again; otherwise move it back (creating the parent
directories), or merely validate in dry-run mode. -/
def undoMoveOp (dryRun : Bool) (g : FS) (op : FileOperation) : FS × Bool :=
  if ¬fsExists g op.newPath then (g, false)
  else if fsExists g op.originalPath then (g, false)
  else if dryRun then (g, true)
  else (fsMove (mkdirParents g op.originalPath.dropLast) op.newPath op.originalPath, true)

/-- `UndoManager._undo_create_dir_operation`: trivially succeed if the
directory is gone (or in dry-run mode); `iterdir`/`rmdir` on a path that
exists but is not a directory raises, which the handler reports as failure;
an existing directory is removed only when empty and always reported as
undone. -/
def undoCreateDirOp (dryRun : Bool) (g : FS) (op : FileOperation) : FS × Bool :=
  if ¬fsExists g op.newPath then (g, true)
  else if dryRun then (g, true)
  else if op.newPath ∉ g.dirs then (g, false)
  else if isEmptyDir g op.newPath then ({ g with dirs := g.dirs.erase op.newPath }, true)
  else (g, true)

/-- The outcome of `UndoManager.undo_operations`: the resulting filesystem
and the returned `(undone_count, error_count, errors)` triple. -/
structure UndoResult where
  fs : FS
  undoneCount : Nat
  errorCount : Nat
  errors : List String
deriving Repr, DecidableEq

/-- Process one reversed log record (`move` and `create_dir` are supported;
anything else is recorded as an unsupported-operation error). -/
def undoStep (dryRun : Bool) (st : UndoResult) (op : FileOperation) : UndoResult :=
  match op.operationType with
  | .move =>
    let r := undoMoveOp dryRun st.fs op
    if r.2 then ⟨r.1, st.undoneCount + 1, st.errorCount, st.errors⟩
    else ⟨r.1, st.undoneCount, st.errorCount + 1, st.errors⟩
  | .create_dir =>
    let r := undoCreateDirOp dryRun st.fs op
    if r.2 then ⟨r.1, st.undoneCount + 1, st.errorCount, st.errors⟩
    else ⟨r.1, st.undoneCount, st.errorCount + 1, st.errors⟩
  | .copy =>
    ⟨st.fs, st.undoneCount, st.errorCount + 1,
      st.errors ++ ["Tipo operazione non supportato: copy"]⟩

/-- `UndoManager.undo_operations`: keep only the successful records, reverse
their file order, and undo them one by one, collecting counts and errors
(the run never aborts). -/
def undoOperations (dryRun : Bool) (g : FS) (ops : List FileOperation) : UndoResult :=
  ((ops.filter fun op => op.success).reverse).foldl (undoStep dryRun) ⟨g, 0, 0, []⟩

/-! ## Helper lemmas: the filesystem model -/

theorem mkdirParents_files (g : FS) (d : FsPath) : (mkdirParents g d).files = g.files := rfl

theorem fsMove_files (g : FS) (src dst : FsPath) :
    (fsMove g src dst).files = g.files.erase src ++ [dst] := rfl

theorem fsMove_dirs (g : FS) (src dst : FsPath) : (fsMove g src dst).dirs = g.dirs := rfl

theorem mem_addMissing_iff (x : FsPath) :
    ∀ (qs : List FsPath) (ds : List FsPath),
      x ∈ qs.foldl (fun ds q => if q ∈ ds then ds else ds ++ [q]) ds ↔ x ∈ ds ∨ x ∈ qs := by
  intro qs
  induction qs with
  | nil => simp
  | cons q qs ih =>
    intro ds
    simp only [List.foldl_cons, ih, List.mem_cons]
    by_cases hq : q ∈ ds
    · simp only [if_pos hq]
      constructor
      · rintro (h | h)
        · exact Or.inl h
        · exact Or.inr (Or.inr h)
      · rintro (h | h | h)
        · exact Or.inl h
        · exact Or.inl (h ▸ hq)
        · exact Or.inr h
    · simp only [if_neg hq, List.mem_append, List.mem_singleton]
      constructor
      · rintro ((h | h) | h)
        · exact Or.inl h
        · exact Or.inr (Or.inl h)
        · exact Or.inr (Or.inr h)
      · rintro (h | h | h)
        · exact Or.inl (Or.inl h)
        · exact Or.inl (Or.inr h)
        · exact Or.inr h

theorem mem_mkdirParents_dirs (g : FS) (d x : FsPath) :
    x ∈ (mkdirParents g d).dirs ↔ x ∈ g.dirs ∨ x ∈ pathPrefixes d := by
  unfold mkdirParents
  exact mem_addMissing_iff x (pathPrefixes d) g.dirs

theorem resolveGo_ok_spec (g : FS) (p : FsPath) :
    ∀ (fuel n : Nat) (q : FsPath), resolveGo g p n fuel = .ok q →
      ∃ j, n ≤ j ∧ j < n + fuel ∧ q = collisionCand p j ∧ ¬fsExists g q ∧
        ∀ m, n ≤ m → m < j → fsExists g (collisionCand p m) := by
  intro fuel
  induction fuel with
  | zero => intro n q h; simp [resolveGo] at h
  | succ fuel ih =>
    intro n q h
    unfold resolveGo at h
    by_cases hex : fsExists g (collisionCand p n)
    · rw [if_pos hex] at h
      obtain ⟨j, hj1, hj2, hj3, hj4, hj5⟩ := ih (n + 1) q h
      refine ⟨j, by omega, by omega, hj3, hj4, ?_⟩
      intro m hm1 hm2
      rcases Nat.eq_or_lt_of_le hm1 with he | hlt
      · exact he ▸ hex
      · exact hj5 m hlt hm2
    · rw [if_neg hex] at h
      cases h
      exact ⟨n, Nat.le_refl n, by omega, rfl, hex, fun m hm1 hm2 => absurd (Nat.lt_of_le_of_lt hm1 hm2) (Nat.lt_irrefl n)⟩

theorem resolveGo_err_spec (g : FS) (p : FsPath) :
    ∀ (fuel n : Nat), (∀ m, n ≤ m → m < n + fuel → fsExists g (collisionCand p m)) →
      resolveGo g p n fuel = .error "Troppi file con lo stesso nome" := by
  intro fuel
  induction fuel with
  | zero => intro n _; rfl
  | succ fuel ih =>
    intro n hall
    unfold resolveGo
    rw [if_pos (hall n (Nat.le_refl n) (by omega))]
    exact ih (n + 1) fun m hm1 hm2 => hall m (by omega) (by omega)

/-- The path returned by (non-dry-run) collision resolution never exists. -/
theorem resolve_ok_not_exists (g : FS) (p q : FsPath)
    (h : resolveNameCollision false g p = .ok q) : ¬fsExists g q := by
  unfold resolveNameCollision at h
  by_cases hex : ¬fsExists g p ∨ false = true
  · rw [if_pos hex] at h
    cases h
    rcases hex with hex | hex
    · exact hex
    · simp at hex
  · rw [if_neg hex] at h
    obtain ⟨j, _, _, _, hq, _⟩ := resolveGo_ok_spec g p 9999 1 q h
    exact hq

/-- Anatomy of a successful non-dry-run `move_file` with a logger attached. -/
theorem moveFile_ok_spec (g : FS) (src destDir : FsPath) (ts : Nat) (r : MoveResult)
    (hsrc : fsExists g src) (h : moveFile false true g src destDir none ts = .ok r) :
    r.ok = true ∧ r.errorMessage = "" ∧
      r.log = [⟨.move, src, r.finalPath, ts, true, ""⟩] ∧
      r.fs.files = g.files.erase src ++ [r.finalPath] ∧
      r.fs.dirs = (mkdirParents g destDir).dirs ∧
      ¬fsExists g r.finalPath ∧
      resolveNameCollision false g (destDir ++ [src.getLastD ""]) = .ok r.finalPath := by
  unfold moveFile at h
  rw [if_neg (not_not_intro hsrc)] at h
  dsimp only at h
  rcases hres : resolveNameCollision false g (destDir ++ [src.getLastD ""]) with e | fp
  · rw [hres] at h; cases h
  · rw [hres] at h
    have hr : r = ⟨fsMove (mkdirParents g destDir) src fp, true, fp, "",
        [⟨.move, src, fp, ts, true, ""⟩]⟩ := by
      cases h; rfl
    subst hr
    exact ⟨rfl, rfl, rfl, rfl, rfl, resolve_ok_not_exists g _ fp hres, rfl⟩

/-! ## Claims C5 and C10: move logging and dry-run behaviour -/

/-- **C5** (amended).  With a logger attached, every `move_file` call whose
source exists and whose collision resolution returns appends exactly one
record — a successful `move` with the final path (OS-level failures, the only
way the failure record of the source could arise, are outside the model);
but a call whose source does not exist returns failure *without appending
any record*.  (Collision-resolution exhaustion likewise escapes as an
exception before any logging.) -/
theorem c5_move_appends_one_record (dryRun : Bool) (g : FS) (src destDir : FsPath)
    (nf : Option String) (ts : Nat) :
    (fsExists g src → ∀ r, moveFile dryRun true g src destDir nf ts = .ok r →
        r.ok = true ∧ r.log = [⟨.move, src, r.finalPath, ts, true, ""⟩]) ∧
    (¬fsExists g src →
        moveFile dryRun true g src destDir nf ts =
          .ok ⟨g, false, [], "File sorgente non trovato", []⟩) := by
  constructor
  · intro hsrc r h
    unfold moveFile at h
    rw [if_neg (not_not_intro hsrc)] at h
    dsimp only at h
    rcases hres : resolveNameCollision dryRun g
        (destDir ++ [match nf with | some n => n | none => src.getLastD ""]) with e | fp
    · rw [hres] at h; cases h
    · rw [hres] at h
      have hr : r = ⟨if dryRun then g else fsMove (mkdirParents g destDir) src fp,
          true, fp, "", [⟨.move, src, fp, ts, true, ""⟩]⟩ := by
        cases h; rfl
      subst hr
      exact ⟨rfl, rfl⟩
  · intro hsrc
    unfold moveFile
    rw [if_pos hsrc]

/-- **C5 witness**: a concrete successful move appends exactly its one
record. -/
theorem c5_move_appends_one_record_witness :
    (⟨⟨[["out", "a.txt"]], [["out"]]⟩, true, ["out", "a.txt"], "",
        [⟨.move, ["inbox", "a.txt"], ["out", "a.txt"], 3, true, ""⟩]⟩ : MoveResult).ok = true ∧
    (⟨⟨[["out", "a.txt"]], [["out"]]⟩, true, ["out", "a.txt"], "",
        [⟨.move, ["inbox", "a.txt"], ["out", "a.txt"], 3, true, ""⟩]⟩ : MoveResult).log =
      [⟨.move, ["inbox", "a.txt"],
        (⟨⟨[["out", "a.txt"]], [["out"]]⟩, true, ["out", "a.txt"], "",
          [⟨.move, ["inbox", "a.txt"], ["out", "a.txt"], 3, true, ""⟩]⟩ : MoveResult).finalPath,
        3, true, ""⟩] :=
  (c5_move_appends_one_record false ⟨[["inbox", "a.txt"]], []⟩ ["inbox", "a.txt"] ["out"]
      none 3).1 (Or.inl (by decide)) _ (by decide)

/-- **C5 counterexample**: with a logger attached, a move whose source file
does not exist is an attempt that fails (`success=False` is returned), yet
the log receives *no* record at all — contradicting "every attempt,
including failed ones, appends exactly one record". -/
theorem c5_missing_source_logs_nothing :
    moveFile false true ⟨[], []⟩ ["ghost.txt"] ["out"] none 0 =
      .ok ⟨⟨[], []⟩, false, [], "File sorgente non trovato", []⟩ := by decide

/-- In dry-run mode collision resolution returns its argument unchanged. -/
theorem resolve_dryRun (g : FS) (p : FsPath) : resolveNameCollision true g p = .ok p :=
  if_pos (Or.inr rfl)

/-- **C10** (confirmed).  In dry-run mode `move_file` never mutates the
filesystem (no directory is created, no file is moved) — even for failed
attempts — and, when the source exists and a logger is attached, it still
appends a `success=True` move record whose path is the un-collision-checked
would-be destination `destDir / filename`, and returns success.  The durable
log therefore cannot distinguish a simulated move from a real one. -/
theorem c10_dry_run_mutates_nothing_still_logs (g : FS) (src destDir : FsPath) (ts : Nat) :
    (∀ (la : Bool) (nf : Option String) (r : MoveResult),
        moveFile true la g src destDir nf ts = .ok r → r.fs = g) ∧
    (fsExists g src →
        moveFile true true g src destDir none ts =
          .ok ⟨g, true, destDir ++ [src.getLastD ""], "",
            [⟨.move, src, destDir ++ [src.getLastD ""], ts, true, ""⟩]⟩) := by
  constructor
  · intro la nf r h
    unfold moveFile at h
    by_cases hsrc : fsExists g src
    · rw [if_neg (not_not_intro hsrc)] at h
      dsimp only at h
      rw [resolve_dryRun] at h
      cases h; rfl
    · rw [if_pos hsrc] at h
      cases h; rfl
  · intro hsrc
    unfold moveFile
    rw [if_neg (not_not_intro hsrc)]
    dsimp only
    rw [resolve_dryRun]
    rfl

/-- **C10 witness**: a dry-run move onto an already-occupied destination
name leaves the filesystem untouched, skips collision resolution (the logged
path is the occupied one), and logs success. -/
theorem c10_dry_run_witness :
    moveFile true true ⟨[["s", "a.txt"], ["out", "a.txt"]], [["out"]]⟩
        ["s", "a.txt"] ["out"] none 5 =
      .ok ⟨⟨[["s", "a.txt"], ["out", "a.txt"]], [["out"]]⟩, true, ["out", "a.txt"], "",
        [⟨.move, ["s", "a.txt"], ["out", "a.txt"], 5, true, ""⟩]⟩ :=
  (c10_dry_run_mutates_nothing_still_logs ⟨[["s", "a.txt"], ["out", "a.txt"]], [["out"]]⟩
      ["s", "a.txt"] ["out"] 5).2 (Or.inl (by decide))

/-! ## Claim C6: collision resolution -/

/-- **C6** (confirmed).  When the destination exists (non-dry-run),
`_resolve_name_collision` returns `stem_N.ext` for the least `N` in 1..9999
whose path is unused, and raises after 9999 attempts; consequently, moving
two different source files with the same destination filename into the same
directory succeeds with two distinct final names, both of which exist
afterwards — nothing is silently overwritten. -/
theorem c6_collision_resolution (g : FS) (p : FsPath) (hex : fsExists g p)
    (g₀ : FS) (a₁ a₂ dest : FsPath) (ts₁ ts₂ : Nat) (hnd : g₀.files.Nodup)
    (h₁ : a₁ ∈ g₀.files) (h₂ : a₂ ∈ g₀.files) (hne : a₁ ≠ a₂)
    (hsame : a₁.getLastD "" = a₂.getLastD "") :
    (∀ q, resolveNameCollision false g p = .ok q →
        ∃ n, 1 ≤ n ∧ n ≤ 9999 ∧ q = collisionCand p n ∧ ¬fsExists g q ∧
          ∀ m, 1 ≤ m → m < n → fsExists g (collisionCand p m)) ∧
    ((∀ n, 1 ≤ n → n ≤ 9999 → fsExists g (collisionCand p n)) →
        resolveNameCollision false g p = .error "Troppi file con lo stesso nome") ∧
    (∀ r₁ r₂, moveFile false true g₀ a₁ dest none ts₁ = .ok r₁ →
        moveFile false true r₁.fs a₂ dest none ts₂ = .ok r₂ →
        r₁.ok = true ∧ r₂.ok = true ∧ r₁.finalPath ≠ r₂.finalPath ∧
          r₁.finalPath ∈ r₂.fs.files ∧ r₂.finalPath ∈ r₂.fs.files) := by
  have hresolve : ∀ q, resolveNameCollision false g p = .ok q →
      ∃ n, 1 ≤ n ∧ n ≤ 9999 ∧ q = collisionCand p n ∧ ¬fsExists g q ∧
        ∀ m, 1 ≤ m → m < n → fsExists g (collisionCand p m) := by
    intro q h
    unfold resolveNameCollision at h
    rw [if_neg (by simp [hex])] at h
    obtain ⟨j, hj1, hj2, hj3, hj4, hj5⟩ := resolveGo_ok_spec g p 9999 1 q h
    exact ⟨j, hj1, by omega, hj3, hj4, hj5⟩
  refine ⟨hresolve, ?_, ?_⟩
  · intro hall
    unfold resolveNameCollision
    rw [if_neg (by simp [hex])]
    exact resolveGo_err_spec g p 9999 1 fun m hm1 hm2 => hall m hm1 (by omega)
  · intro r₁ r₂ hr₁ hr₂
    obtain ⟨hok₁, _, _, hfiles₁, _, hnex₁, _⟩ :=
      moveFile_ok_spec g₀ a₁ dest ts₁ r₁ (Or.inl h₁) hr₁
    have ha₂ : a₂ ∈ r₁.fs.files := by
      rw [hfiles₁]
      exact List.mem_append_left _ ((List.mem_erase_of_ne (Ne.symm hne)).mpr h₂)
    obtain ⟨hok₂, _, _, hfiles₂, _, hnex₂, _⟩ :=
      moveFile_ok_spec r₁.fs a₂ dest ts₂ r₂ (Or.inl ha₂) hr₂
    have hB₁mem : r₁.finalPath ∈ r₁.fs.files := by
      rw [hfiles₁]; exact List.mem_append_right _ (List.mem_singleton_self _)
    have hB₁notg₀ : r₁.finalPath ∉ g₀.files := fun hmem => hnex₁ (Or.inl hmem)
    have hBne : r₁.finalPath ≠ r₂.finalPath := by
      intro he
      exact hnex₂ (Or.inl (he ▸ hB₁mem))
    refine ⟨hok₁, hok₂, hBne, ?_, ?_⟩
    · rw [hfiles₂]
      refine List.mem_append_left _ ((List.mem_erase_of_ne ?_).mpr hB₁mem)
      intro he
      exact hB₁notg₀ (he ▸ h₂)
    · rw [hfiles₂]
      exact List.mem_append_right _ (List.mem_singleton_self _)

/-- **C6 witness**: two concrete files named `x.txt` moved into `d` end up
as `x.txt` and `x_1.txt`, both present. -/
theorem c6_collision_resolution_witness :
    (⟨⟨[["s2", "x.txt"], ["d", "x.txt"]], [["d"]]⟩, true, ["d", "x.txt"], "",
        [⟨.move, ["s1", "x.txt"], ["d", "x.txt"], 1, true, ""⟩]⟩ : MoveResult).ok = true ∧
    (⟨⟨[["d", "x.txt"], ["d", "x_1.txt"]], [["d"]]⟩, true, ["d", "x_1.txt"], "",
        [⟨.move, ["s2", "x.txt"], ["d", "x_1.txt"], 2, true, ""⟩]⟩ : MoveResult).ok = true ∧
    (["d", "x.txt"] : FsPath) ≠ ["d", "x_1.txt"] ∧
    (["d", "x.txt"] : FsPath) ∈ [["d", "x.txt"], ["d", "x_1.txt"]] ∧
    (["d", "x_1.txt"] : FsPath) ∈ [["d", "x.txt"], ["d", "x_1.txt"]] :=
  (c6_collision_resolution ⟨[["q"]], []⟩ ["q"] (Or.inl (by decide))
      ⟨[["s1", "x.txt"], ["s2", "x.txt"]], []⟩ ["s1", "x.txt"] ["s2", "x.txt"] ["d"] 1 2
      (by decide) (by decide) (by decide) (by decide) (by decide)).2.2
    ⟨⟨[["s2", "x.txt"], ["d", "x.txt"]], [["d"]]⟩, true, ["d", "x.txt"], "",
        [⟨.move, ["s1", "x.txt"], ["d", "x.txt"], 1, true, ""⟩]⟩
    ⟨⟨[["d", "x.txt"], ["d", "x_1.txt"]], [["d"]]⟩, true, ["d", "x_1.txt"], "",
        [⟨.move, ["s2", "x.txt"], ["d", "x_1.txt"], 2, true, ""⟩]⟩
    (by decide) (by decide)

/-! ## Claim C1: move/undo round trip -/

/-- **C1** (confirmed).  Moving a file at `src` (non-dry-run, logger
attached) into `destDir`, so that it ends at the resolved path
`r.finalPath`, and then running `undo_operations` on the log produced by the
move, restores the file at `src` and removes it from `r.finalPath` (one
operation undone, no errors).  And a directory recorded by a successful
`create_dir` entry is removed by the undo exactly when it is empty at undo
time: the undo step deletes the directory entry when it has no descendants
and otherwise leaves the filesystem — including every file and directory
beneath the recorded directory — completely untouched, reporting success
either way. -/
theorem c1_move_undo_roundtrip (g : FS) (src destDir : FsPath) (ts : Nat)
    (hnd : g.files.Nodup) (hsrc : src ∈ g.files) (hsd : src ∉ g.dirs)
    (hpre : src ∉ pathPrefixes destDir) :
    (∀ r, moveFile false true g src destDir none ts = .ok r →
        src ∈ (undoOperations false r.fs r.log).fs.files ∧
        r.finalPath ∉ (undoOperations false r.fs r.log).fs.files ∧
        (undoOperations false r.fs r.log).undoneCount = 1 ∧
        (undoOperations false r.fs r.log).errorCount = 0) ∧
    (∀ (g' : FS) (d : FsPath) (ts' : Nat), d ∈ g'.dirs →
        undoCreateDirOp false g' ⟨.create_dir, [], d, ts', true, ""⟩ =
          (⟨g'.files, if isEmptyDir g' d then g'.dirs.erase d else g'.dirs⟩, true)) := by
  constructor
  · intro r hr
    obtain ⟨hok, herr, hlog, hfiles, hdirs, hnex, _⟩ :=
      moveFile_ok_spec g src destDir ts r (Or.inl hsrc) hr
    have hBne : r.finalPath ≠ src := fun he => hnex (Or.inl (he ▸ hsrc))
    have hexB : fsExists r.fs r.finalPath := by
      refine Or.inl ?_
      rw [hfiles]
      exact List.mem_append_right _ (List.mem_singleton_self _)
    have hnexSrc : ¬fsExists r.fs src := by
      rintro (hf | hd)
      · rw [hfiles] at hf
        rcases List.mem_append.mp hf with hf | hf
        · exact (List.Nodup.not_mem_erase hnd) hf
        · exact hBne (List.mem_singleton.mp hf).symm
      · rw [hdirs] at hd
        rcases (mem_mkdirParents_dirs g destDir src).mp hd with hd | hd
        · exact hsd hd
        · exact hpre hd
    have hundoMove : undoMoveOp false r.fs ⟨.move, src, r.finalPath, ts, true, ""⟩ =
        (fsMove (mkdirParents r.fs src.dropLast) r.finalPath src, true) := by
      unfold undoMoveOp
      rw [if_neg (not_not_intro hexB), if_neg hnexSrc, if_neg (Bool.false_ne_true)]
    have hufiles : (fsMove (mkdirParents r.fs src.dropLast) r.finalPath src).files =
        g.files.erase src ++ [src] := by
      rw [fsMove_files, mkdirParents_files, hfiles,
        List.erase_append_right _ (fun hmem =>
          hnex (Or.inl (List.erase_subset _ _ hmem))),
        List.erase_cons_head, List.append_nil]
    have hu : undoOperations false r.fs r.log =
        ⟨fsMove (mkdirParents r.fs src.dropLast) r.finalPath src, 1, 0, []⟩ := by
      rw [hlog]
      show (([⟨.move, src, r.finalPath, ts, true, ""⟩] :
          List FileOperation).filter (fun op => op.success)).reverse.foldl
            (undoStep false) ⟨r.fs, 0, 0, []⟩ = _
      simp only [List.filter, List.reverse_singleton, List.foldl_cons, List.foldl_nil]
      show undoStep false ⟨r.fs, 0, 0, []⟩ ⟨.move, src, r.finalPath, ts, true, ""⟩ = _
      unfold undoStep
      rw [hundoMove]
      rfl
    rw [hu]
    refine ⟨?_, ?_, rfl, rfl⟩
    · rw [hufiles]
      exact List.mem_append_right _ (List.mem_singleton_self _)
    · rw [hufiles]
      intro hmem
      rcases List.mem_append.mp hmem with hmem | hmem
      · exact hnex (Or.inl (List.erase_subset _ _ hmem))
      · exact hBne (List.mem_singleton.mp hmem)
  · intro g' d ts' hd
    unfold undoCreateDirOp
    dsimp only
    rw [if_neg (show ¬¬fsExists g' d from not_not_intro (Or.inr hd)),
      if_neg (Bool.false_ne_true), if_neg (show ¬d ∉ g'.dirs from not_not_intro hd)]
    by_cases hemp : isEmptyDir g' d
    · rw [if_pos hemp, if_pos hemp]
    · rw [if_neg hemp, if_neg hemp]

/-- **C1 witness**: a concrete move of `inbox/a.txt` to `out/ACME` and its
undo, restoring the file and leaving `out/ACME` gone or present exactly by
emptiness (here: the created directory keeps existing, and the undo of its
`create_dir` record on the post-undo filesystem removes it because it is
then empty). -/
theorem c1_move_undo_roundtrip_witness :
    ((["inbox", "a.txt"] : FsPath) ∈
        (undoOperations false
          ⟨[["out", "ACME", "a.txt"]], [["out"], ["out", "ACME"]]⟩
          [⟨.move, ["inbox", "a.txt"], ["out", "ACME", "a.txt"], 7, true, ""⟩]).fs.files ∧
      (["out", "ACME", "a.txt"] : FsPath) ∉
        (undoOperations false
          ⟨[["out", "ACME", "a.txt"]], [["out"], ["out", "ACME"]]⟩
          [⟨.move, ["inbox", "a.txt"], ["out", "ACME", "a.txt"], 7, true, ""⟩]).fs.files ∧
      (undoOperations false
          ⟨[["out", "ACME", "a.txt"]], [["out"], ["out", "ACME"]]⟩
          [⟨.move, ["inbox", "a.txt"], ["out", "ACME", "a.txt"], 7, true, ""⟩]).undoneCount = 1 ∧
      (undoOperations false
          ⟨[["out", "ACME", "a.txt"]], [["out"], ["out", "ACME"]]⟩
          [⟨.move, ["inbox", "a.txt"], ["out", "ACME", "a.txt"], 7, true, ""⟩]).errorCount = 0) ∧
    undoCreateDirOp false ⟨[["inbox", "a.txt"]], [["out"], ["out", "ACME"], ["inbox"]]⟩
        ⟨.create_dir, [], ["out", "ACME"], 6, true, ""⟩ =
      (⟨[["inbox", "a.txt"]],
        if isEmptyDir ⟨[["inbox", "a.txt"]], [["out"], ["out", "ACME"], ["inbox"]]⟩ ["out", "ACME"]
        then ([["out"], ["out", "ACME"], ["inbox"]] : List FsPath).erase ["out", "ACME"]
        else [["out"], ["out", "ACME"], ["inbox"]]⟩, true) := by
  have hc := c1_move_undo_roundtrip ⟨[["inbox", "a.txt"]], []⟩ ["inbox", "a.txt"] ["out", "ACME"] 7
    (by decide) (by decide) (by decide) (by decide)
  refine ⟨?_, hc.2 ⟨[["inbox", "a.txt"]], [["out"], ["out", "ACME"], ["inbox"]]⟩ ["out", "ACME"] 6
      (by decide)⟩
  exact hc.1 ⟨⟨[["out", "ACME", "a.txt"]], [["out"], ["out", "ACME"]]⟩, true,
      ["out", "ACME", "a.txt"], "",
      [⟨.move, ["inbox", "a.txt"], ["out", "ACME", "a.txt"], 7, true, ""⟩]⟩ (by decide)

/-! ## Claim C7: date extraction -/

theorem findSome?_some_char {α β : Type} (g : α → Option β) :
    ∀ (l : List α) (b : β), l.findSome? g = some b →
      ∃ i, i < l.length ∧ (l.get? i).bind g = some b ∧
        ∀ j, j < i → (l.get? j).bind g = none := by
  intro l
  induction l with
  | nil => intro b h; simp [List.findSome?] at h
  | cons a l ih =>
    intro b h
    rw [List.findSome?_cons] at h
    rcases hg : g a with _ | b'
    · rw [hg] at h
      obtain ⟨i, hi1, hi2, hi3⟩ := ih b h
      refine ⟨i + 1, by simpa using hi1, by simpa using hi2, ?_⟩
      intro j hj
      cases j with
      | zero => simpa using hg
      | succ j => exact hi3 j (by omega)
    · rw [hg] at h
      cases h
      exact ⟨0, by simp, by simpa using hg, fun j hj => absurd hj (Nat.not_lt_zero j)⟩

theorem findSome?_none_char {α β : Type} (g : α → Option β) :
    ∀ l : List α, l.findSome? g = none → ∀ i, (l.get? i).bind g = none := by
  intro l
  induction l with
  | nil => intro _ i; simp
  | cons a l ih =>
    intro h i
    rw [List.findSome?_cons] at h
    rcases hg : g a with _ | b'
    · rw [hg] at h
      cases i with
      | zero => simpa using hg
      | succ i => exact ih h i
    · rw [hg] at h; cases h

/-- The per-pattern body of `extract_date_from_filename` agrees with
`nthPatternDate`'s body. -/
theorem extractDate_inner_eq (filename : String)
    (pat : List Char → Option (Nat × Nat × Nat)) :
    (match searchPat pat filename.data with
      | some (y, mo, d) =>
        if boundsOk y mo d then
          if dateCtorOk y mo d then some (⟨y, mo, d⟩ : PyDate) else none
        else none
      | none => none) =
    (match searchPat pat filename.data with
      | some (y, mo, d) =>
        if boundsOk y mo d && dateCtorOk y mo d then some (⟨y, mo, d⟩ : PyDate) else none
      | none => none) := by
  rcases searchPat pat filename.data with _ | ⟨y, mo, d⟩
  · rfl
  · by_cases hb : boundsOk y mo d
    · by_cases hc : dateCtorOk y mo d
      · simp [hb, hc]
      · simp [hb, hc]
    · simp [hb]

/-- **C7** (amended).  `extract_date_from_filename` tries the patterns
`YYYY-MM-DD`, `DD[sep]MM[sep]YYYY`, `YYYY/MM/DD`, `YYYYMMDD`,
`DD[sep]MM[sep]YY` in this fixed order, and returns the date of the first
pattern whose first occurrence's captured values satisfy the bounds check
*and* form a constructible calendar date — the `datetime.date` constructor
does validate day counts, and its `ValueError` falls through to the next
pattern.  Every returned date is bounds-valid and calendar-valid; `none` is
returned exactly when every pattern fails. -/
theorem c7_date_extraction_first_valid_pattern (filename : String) :
    match extractDateFromFilename filename with
    | some d =>
      (1900 ≤ d.year ∧ d.year ≤ 2100 ∧ 1 ≤ d.month ∧ d.month ≤ 12 ∧
        1 ≤ d.day ∧ d.day ≤ daysInMonth d.year d.month) ∧
      ∃ i, i < 5 ∧ nthPatternDate i filename = some d ∧
        ∀ j, j < i → nthPatternDate j filename = none
    | none => ∀ i, nthPatternDate i filename = none := by
  have hnth : ∀ i, nthPatternDate i filename =
      (datePatterns.get? i).bind fun pat =>
        match searchPat pat filename.data with
        | some (y, mo, d) =>
          if boundsOk y mo d then
            if dateCtorOk y mo d then some (⟨y, mo, d⟩ : PyDate) else none
          else none
        | none => none := by
    intro i
    unfold nthPatternDate
    rcases datePatterns.get? i with _ | pat
    · rfl
    · simpa using (extractDate_inner_eq filename pat).symm
  rcases hres : extractDateFromFilename filename with _ | d
  · intro i
    rw [hnth]
    exact findSome?_none_char _ datePatterns hres i
  · obtain ⟨i, hi1, hi2, hi3⟩ := findSome?_some_char _ datePatterns d hres
    constructor
    · have hv := hi2
      rcases hpat : datePatterns.get? i with _ | pat
      · rw [hpat] at hv; simp at hv
      · rw [hpat] at hv
        simp only [Option.some_bind] at hv
        rcases hsp : searchPat pat filename.data with _ | yd
        · rw [hsp] at hv; cases hv
        · obtain ⟨y, mo, dd⟩ := yd
          rw [hsp] at hv
          dsimp only at hv
          by_cases hb : boundsOk y mo dd = true
          · by_cases hc : dateCtorOk y mo dd = true
            · rw [if_pos hb, if_pos hc] at hv
              cases hv
              simp only [boundsOk, dateCtorOk, Bool.and_eq_true, decide_eq_true_eq] at hb hc
              exact ⟨hb.1.1.1.1.1, hb.1.1.1.1.2, hb.1.1.1.2, hb.1.1.2, hb.1.2, hc.2⟩
            · rw [if_pos hb, if_neg hc] at hv; cases hv
          · rw [if_neg hb] at hv; cases hv
    · refine ⟨i, by simpa using hi1, ?_, ?_⟩
      · rw [hnth]; exact hi2
      · intro j hj
        rw [hnth]
        exact hi3 j hj

/-- **C7 witness**: the characterization at a concrete filename; the date
`2024-03-15` comes from the first pattern. -/
theorem c7_date_extraction_witness :
    (1900 ≤ (2024 : Nat) ∧ (2024 : Nat) ≤ 2100 ∧ 1 ≤ (3 : Nat) ∧ (3 : Nat) ≤ 12 ∧
      1 ≤ (15 : Nat) ∧ (15 : Nat) ≤ daysInMonth 2024 3) ∧
    ∃ i, i < 5 ∧ nthPatternDate i "report_2024-03-15.pdf" = some ⟨2024, 3, 15⟩ ∧
      ∀ j, j < i → nthPatternDate j "report_2024-03-15.pdf" = none := by
  have h := c7_date_extraction_first_valid_pattern "report_2024-03-15.pdf"
  rw [show extractDateFromFilename "report_2024-03-15.pdf" = some ⟨2024, 3, 15⟩ from by decide] at h
  exact h

/-- **C7 counterexample**: on `2024-02-31` the first pattern's captures
(2024, 2, 31) satisfy the claimed bounds, so under the claim's "no
calendar-day-count validation beyond these bounds" the result would be
February 31st 2024; the code instead rejects it in the `date` constructor
and falls through to the fifth pattern, returning February 24th *2031*. -/
theorem c7_calendar_validation_counterexample :
    extractDateFromFilename "2024-02-31" = some ⟨2031, 2, 24⟩ ∧
    extractDateClaimed "2024-02-31" = some ⟨2024, 2, 31⟩ ∧
    extractDateFromFilename "2024-02-31" ≠ extractDateClaimed "2024-02-31" := by decide

/-! ## Score bounds and rational-arithmetic bridges -/

theorem rmaxPy_eq_max (a b : Rat) : rmaxPy a b = max a b := by
  unfold rmaxPy
  rw [max_comm, max_def]

theorem rminPy_eq_min (a b : Rat) : rminPy a b = min a b := by
  unfold rminPy
  rw [min_def]

theorem rat_mul_den (q : Rat) : q * (q.den : Rat) = (q.num : Rat) := by
  nth_rewrite 1 [← Rat.num_div_den q]
  exact div_mul_cancel₀ _ (show ((q.den : Rat)) ≠ 0 from Nat.cast_ne_zero.mpr q.den_nz)

theorem scoreAdd_eq (q : Rat) (n : Nat) : scoreAdd q n = q + (n : Rat) := by
  unfold scoreAdd
  have hd : ((q.den : ℤ) : Rat) ≠ 0 := by
    push_cast
    exact Nat.cast_ne_zero.mpr q.den_nz
  rw [Rat.divInt_eq_div, div_eq_iff hd]
  push_cast
  rw [add_mul, rat_mul_den]

theorem scoreSub_eq (q : Rat) (n : Nat) : scoreSub q n = q - (n : Rat) := by
  unfold scoreSub
  have hd : ((q.den : ℤ) : Rat) ≠ 0 := by
    push_cast
    exact Nat.cast_ne_zero.mpr q.den_nz
  rw [Rat.divInt_eq_div, div_eq_iff hd]
  push_cast
  rw [sub_mul, rat_mul_den]

/-- Positional bounds on an LCS row: the entry at offset `j` is at most
`i + j` and at most `cap`. -/
def RowBnd : List Nat → Nat → Nat → Prop
  | [], _, _ => True
  | a :: r, i, cap => (a ≤ i ∧ a ≤ cap) ∧ RowBnd r (i + 1) cap

theorem rowBnd_replicate (k : Nat) : ∀ (i cap : Nat), RowBnd (List.replicate k 0) i cap := by
  induction k with
  | zero => intro i cap; trivial
  | succ k ih =>
    intro i cap
    exact ⟨⟨Nat.zero_le i, Nat.zero_le cap⟩, ih (i + 1) cap⟩

theorem lcsRowGo_bnd (y : Char) :
    ∀ (xs : List Char) (prev : List Nat) (cur i cap : Nat),
      RowBnd prev i cap → cur ≤ i → cur ≤ cap + 1 →
      RowBnd (lcsRowGo y xs prev cur) (i + 1) (cap + 1) := by
  intro xs
  induction xs with
  | nil => intro prev cur i cap _ _ _; unfold lcsRowGo; trivial
  | cons x xs ih =>
    intro prev cur i cap hprev hcur1 hcur2
    cases prev with
    | nil => unfold lcsRowGo; trivial
    | cons p ps =>
      obtain ⟨⟨hp1, hp2⟩, hps⟩ := hprev
      have hhead : ps.headD 0 ≤ i + 1 ∧ ps.headD 0 ≤ cap := by
        cases ps with
        | nil => exact ⟨Nat.zero_le _, Nat.zero_le _⟩
        | cons q qs => exact ⟨hps.1.1, hps.1.2⟩
      have hv : (if x = y then p + 1 else max (ps.headD 0) cur) ≤ i + 1 ∧
          (if x = y then p + 1 else max (ps.headD 0) cur) ≤ cap + 1 := by
        by_cases he : x = y
        · rw [if_pos he]; omega
        · rw [if_neg he]
          constructor
          · exact max_le hhead.1 (by omega)
          · exact max_le (by omega) hcur2
      exact ⟨hv, ih ps _ (i + 1) cap hps hv.1 hv.2⟩

theorem lcsRowGo_length (y : Char) :
    ∀ (xs : List Char) (prev : List Nat) (cur : Nat),
      (lcsRowGo y xs prev cur).length = min xs.length prev.length := by
  intro xs
  induction xs with
  | nil => intro prev cur; simp [lcsRowGo]
  | cons x xs ih =>
    intro prev cur
    cases prev with
    | nil => simp [lcsRowGo]
    | cons p ps =>
      simp only [lcsRowGo, List.length_cons, ih, min_def]
      split_ifs <;> omega

theorem lcs_fold_len (xs : List Char) :
    ∀ (ys : List Char) (row : List Nat), row.length = xs.length + 1 →
      (ys.foldl (fun row y => 0 :: lcsRowGo y xs row 0) row).length = xs.length + 1 := by
  intro ys
  induction ys with
  | nil => intro row h; exact h
  | cons y ys ih =>
    intro row h
    rw [List.foldl_cons]
    refine ih _ ?_
    simp only [List.length_cons, lcsRowGo_length, h, min_def]
    split_ifs <;> omega

theorem lcs_fold_bnd (xs : List Char) :
    ∀ (ys : List Char) (row : List Nat) (cap : Nat), RowBnd row 0 cap →
      RowBnd (ys.foldl (fun row y => 0 :: lcsRowGo y xs row 0) row) 0 (cap + ys.length) := by
  intro ys
  induction ys with
  | nil => intro row cap h; simpa using h
  | cons y ys ih =>
    intro row cap h
    rw [List.foldl_cons]
    have hnew : RowBnd (0 :: lcsRowGo y xs row 0) 0 (cap + 1) :=
      ⟨⟨Nat.le_refl 0, Nat.zero_le _⟩, lcsRowGo_bnd y xs row 0 0 cap h (Nat.le_refl 0) (by omega)⟩
    have := ih (0 :: lcsRowGo y xs row 0) (cap + 1) hnew
    rwa [show cap + 1 + ys.length = cap + (ys.length + 1) from by omega] at this

theorem rowBnd_mem :
    ∀ (r : List Nat) (i cap a : Nat), RowBnd r i cap → a ∈ r →
      a ≤ cap ∧ a ≤ i + r.length - 1 := by
  intro r
  induction r with
  | nil => intro i cap a _ ha; cases ha
  | cons b r ih =>
    intro i cap a h ha
    obtain ⟨⟨hb1, hb2⟩, hr⟩ := h
    rcases List.mem_cons.mp ha with he | hm
    · subst he; constructor
      · exact hb2
      · simp only [List.length_cons]; omega
    · obtain ⟨h1, h2⟩ := ih (i + 1) cap a hr hm
      constructor
      · exact h1
      · simp only [List.length_cons]; omega

theorem lcsLen_le_left (xs ys : List Char) : lcsLen xs ys ≤ xs.length := by
  unfold lcsLen
  set final := ys.foldl (fun row y => 0 :: lcsRowGo y xs row 0)
    (List.replicate (xs.length + 1) 0) with hfinal
  rcases hf : final with _ | ⟨a, r⟩
  · simp
  · have hb : RowBnd final 0 (0 + ys.length) :=
      lcs_fold_bnd xs ys _ 0 (rowBnd_replicate _ 0 0)
    have hlen : final.length = xs.length + 1 :=
      lcs_fold_len xs ys _ (by simp)
    have hmem : final.getLastD 0 ∈ final := by
      rw [hf]; exact List.getLast_mem (by simp)  -- getLastD on cons = getLast
    have := (rowBnd_mem final 0 (0 + ys.length) (final.getLastD 0) hb hmem).2
    rw [← hf]
    omega

theorem lcsLen_le_right (xs ys : List Char) : lcsLen xs ys ≤ ys.length := by
  unfold lcsLen
  set final := ys.foldl (fun row y => 0 :: lcsRowGo y xs row 0)
    (List.replicate (xs.length + 1) 0) with hfinal
  rcases hf : final with _ | ⟨a, r⟩
  · simp
  · have hb : RowBnd final 0 (0 + ys.length) :=
      lcs_fold_bnd xs ys _ 0 (rowBnd_replicate _ 0 0)
    have hmem : final.getLastD 0 ∈ final := by
      rw [hf]; exact List.getLast_mem (by simp)
    have := (rowBnd_mem final 0 (0 + ys.length) (final.getLastD 0) hb hmem).1
    rw [← hf]
    omega

theorem fratio_nonneg (a b : List Char) : 0 ≤ fratio a b := by
  unfold fratio
  split
  · norm_num
  · exact Rat.divInt_nonneg (by positivity) (by positivity)

theorem fratio_le_100 (a b : List Char) : fratio a b ≤ 100 := by
  unfold fratio
  split
  · exact le_refl _
  · next h =>
    have hpos : 0 < a.length + b.length := Nat.pos_of_ne_zero h
    have hd : (0 : Rat) < (a.length : Rat) + (b.length : Rat) := by
      have h0 : (0 : Rat) < ((a.length + b.length : Nat) : Rat) := by exact_mod_cast hpos
      push_cast at h0
      linarith
    have h1 : ((lcsLen a b : Nat) : Rat) ≤ (a.length : Rat) := by
      exact_mod_cast lcsLen_le_left a b
    have h2 : ((lcsLen a b : Nat) : Rat) ≤ (b.length : Rat) := by
      exact_mod_cast lcsLen_le_right a b
    rw [Rat.divInt_eq_div]
    push_cast
    rw [div_le_iff₀ hd]
    linarith

theorem foldl_rmax_le (c : Rat) :
    ∀ (l : List Rat) (init : Rat), init ≤ c → (∀ x ∈ l, x ≤ c) →
      l.foldl rmaxPy init ≤ c := by
  intro l
  induction l with
  | nil => intro init h _; exact h
  | cons x l ih =>
    intro init h hl
    rw [List.foldl_cons]
    refine ih _ ?_ fun x hx => hl x (List.mem_cons_of_mem _ hx)
    rw [rmaxPy_eq_max]
    exact max_le h (hl x (List.mem_cons_self _ _))

theorem foldl_rmax_ge_init :
    ∀ (l : List Rat) (init : Rat), init ≤ l.foldl rmaxPy init := by
  intro l
  induction l with
  | nil => intro init; exact le_refl _
  | cons x l ih =>
    intro init
    rw [List.foldl_cons]
    exact le_trans (by rw [rmaxPy_eq_max]; exact le_max_left _ _) (ih _)

theorem partialRatio_nonneg (a b : List Char) : 0 ≤ partialRatio a b := by
  unfold partialRatio
  split
  · exact foldl_rmax_ge_init _ 0
  · exact foldl_rmax_ge_init _ 0

theorem partialRatio_le_100 (a b : List Char) : partialRatio a b ≤ 100 := by
  unfold partialRatio
  split
  · refine foldl_rmax_le 100 _ 0 (by norm_num) ?_
    intro x hx
    obtain ⟨w, _, hw⟩ := List.mem_map.mp hx
    exact hw ▸ fratio_le_100 a w
  · refine foldl_rmax_le 100 _ 0 (by norm_num) ?_
    intro x hx
    obtain ⟨w, _, hw⟩ := List.mem_map.mp hx
    exact hw ▸ fratio_le_100 b w

theorem tokenSortRatio_nonneg (a b : List Char) : 0 ≤ tokenSortRatio a b :=
  fratio_nonneg _ _

theorem tokenSortRatio_le_100 (a b : List Char) : tokenSortRatio a b ≤ 100 :=
  fratio_le_100 _ _

theorem tokenSetRatio_nonneg (a b : List Char) : 0 ≤ tokenSetRatio a b := by
  unfold tokenSetRatio
  rw [rmaxPy_eq_max, rmaxPy_eq_max]
  exact le_trans (fratio_nonneg _ _) (le_trans (le_max_left _ _) (le_max_left _ _))

theorem tokenSetRatio_le_100 (a b : List Char) : tokenSetRatio a b ≤ 100 := by
  unfold tokenSetRatio
  rw [rmaxPy_eq_max, rmaxPy_eq_max]
  exact max_le (max_le (fratio_le_100 _ _) (fratio_le_100 _ _)) (fratio_le_100 _ _)

theorem pairScore_nonneg (t al : List Char) : 0 ≤ pairScore t al := by
  unfold pairScore
  have hraw : 0 ≤ rmaxPy (rmaxPy (rmaxPy (fratio t al) (partialRatio t al))
      (tokenSortRatio t al)) (tokenSetRatio t al) := by
    simp only [rmaxPy_eq_max]
    exact le_trans (fratio_nonneg t al)
      (le_trans (le_max_left _ _) (le_trans (le_max_left _ _) (le_max_left _ _)))
  split
  · norm_num
  · split
    · rw [rminPy_eq_min, scoreAdd_eq]
      refine le_min ?_ (by norm_num)
      have : (0 : Rat) ≤ 10 := by norm_num
      linarith
    · exact hraw

theorem pairScore_le_100 (t al : List Char) : pairScore t al ≤ 100 := by
  unfold pairScore
  have hraw : rmaxPy (rmaxPy (rmaxPy (fratio t al) (partialRatio t al))
      (tokenSortRatio t al)) (tokenSetRatio t al) ≤ 100 := by
    simp only [rmaxPy_eq_max]
    exact max_le (max_le (max_le (fratio_le_100 t al) (partialRatio_le_100 t al))
      (tokenSortRatio_le_100 t al)) (tokenSetRatio_le_100 t al)
  split
  · exact le_refl _
  · split
    · rw [rminPy_eq_min]
      exact min_le_right _ _
    · exact hraw

theorem pairScore_exact (l : List Char) : pairScore l l = 100 := by
  unfold pairScore
  rw [if_pos rfl]

/-! ## The best-candidate fold of `find_best_match` -/

/-- A `(company, alias)` pair the loop can accept, independently of the loop
state: nonempty alias, score at or above the threshold, validity rule
passed. -/
def eligiblePair (cfg : List (String × CompanyRules)) (threshold : Rat) (normText : String)
    (p : String × String) : Prop :=
  p.2 ≠ "" ∧ threshold ≤ pairScore normText.data p.2.data ∧
    isValidMatch cfg p.1 p.2 normText = true

theorem fbmStep_cases (cfg : List (String × CompanyRules)) (θ : Rat) (nt : String)
    (st : Option String × Rat × String) (p : String × String) :
    fbmStep cfg θ nt st p = st ∨
      (eligiblePair cfg θ nt p ∧ st.2.1 < pairScore nt.data p.2.data ∧
        fbmStep cfg θ nt st p = (some p.1, pairScore nt.data p.2.data, p.2)) := by
  unfold fbmStep
  by_cases h0 : p.2 = ""
  · rw [if_pos h0]; exact Or.inl rfl
  · rw [if_neg h0]
    by_cases hc : st.2.1 < pairScore nt.data p.2.data ∧ θ ≤ pairScore nt.data p.2.data ∧
        isValidMatch cfg p.1 p.2 nt = true
    · rw [if_pos hc]
      exact Or.inr ⟨⟨h0, hc.2.1, hc.2.2⟩, hc.1, rfl⟩
    · rw [if_neg hc]; exact Or.inl rfl

theorem fbmStep_score_le (cfg : List (String × CompanyRules)) (θ : Rat) (nt : String)
    (st : Option String × Rat × String) (p : String × String) :
    st.2.1 ≤ (fbmStep cfg θ nt st p).2.1 := by
  rcases fbmStep_cases cfg θ nt st p with h | ⟨_, hlt, h⟩
  · rw [h]
  · rw [h]; exact le_of_lt hlt

theorem fbmFold_score_mono (cfg : List (String × CompanyRules)) (θ : Rat) (nt : String) :
    ∀ (ps : List (String × String)) (st : Option String × Rat × String),
      st.2.1 ≤ (ps.foldl (fbmStep cfg θ nt) st).2.1 := by
  intro ps
  induction ps with
  | nil => intro st; exact le_refl _
  | cons p ps ih =>
    intro st
    rw [List.foldl_cons]
    exact le_trans (fbmStep_score_le cfg θ nt st p) (ih _)

theorem fbmFold_score_ge (cfg : List (String × CompanyRules)) (θ : Rat) (nt : String) :
    ∀ (ps : List (String × String)) (st : Option String × Rat × String)
      (p : String × String), p ∈ ps → eligiblePair cfg θ nt p →
      pairScore nt.data p.2.data ≤ (ps.foldl (fbmStep cfg θ nt) st).2.1 := by
  intro ps
  induction ps with
  | nil => intro st p hp; cases hp
  | cons q qs ih =>
    intro st p hp he
    rw [List.foldl_cons]
    rcases List.mem_cons.mp hp with heq | hm
    · subst heq
      refine le_trans ?_ (fbmFold_score_mono cfg θ nt qs _)
      unfold fbmStep
      rw [if_neg he.1]
      by_cases hc : st.2.1 < pairScore nt.data p.2.data ∧ θ ≤ pairScore nt.data p.2.data ∧
          isValidMatch cfg p.1 p.2 nt = true
      · rw [if_pos hc]
      · rw [if_neg hc]
        rcases not_and_or.mp hc with h1 | h1
        · exact le_of_not_lt h1
        · exact absurd ⟨he.2.1, he.2.2⟩ h1
    · exact ih _ p hm he

theorem fbmFold_score_cases (cfg : List (String × CompanyRules)) (θ : Rat) (nt : String) :
    ∀ (ps : List (String × String)) (st : Option String × Rat × String),
      (ps.foldl (fbmStep cfg θ nt) st).2.1 = st.2.1 ∨
        ∃ p ∈ ps, eligiblePair cfg θ nt p ∧
          (ps.foldl (fbmStep cfg θ nt) st).2.1 = pairScore nt.data p.2.data := by
  intro ps
  induction ps with
  | nil => intro st; exact Or.inl rfl
  | cons q qs ih =>
    intro st
    rw [List.foldl_cons]
    rcases ih (fbmStep cfg θ nt st q) with h | ⟨p, hp, he, hs⟩
    · rcases fbmStep_cases cfg θ nt st q with hq | ⟨he, _, hq⟩
      · exact Or.inl (h.trans (by rw [hq]))
      · exact Or.inr ⟨q, List.mem_cons_self _ _, he, h.trans (by rw [hq])⟩
    · exact Or.inr ⟨p, List.mem_cons_of_mem _ hp, he, hs⟩

theorem fbmStep_none_eq (cfg : List (String × CompanyRules)) (θ : Rat) (nt : String)
    (st : Option String × Rat × String) (p : String × String)
    (h : (fbmStep cfg θ nt st p).1 = none) : fbmStep cfg θ nt st p = st := by
  rcases fbmStep_cases cfg θ nt st p with hq | ⟨_, _, hq⟩
  · exact hq
  · rw [hq] at h; cases h

theorem fbmFold_none_eq (cfg : List (String × CompanyRules)) (θ : Rat) (nt : String) :
    ∀ (ps : List (String × String)) (st : Option String × Rat × String),
      (ps.foldl (fbmStep cfg θ nt) st).1 = none → ps.foldl (fbmStep cfg θ nt) st = st := by
  intro ps
  induction ps with
  | nil => intro st _; rfl
  | cons q qs ih =>
    intro st h
    rw [List.foldl_cons] at h ⊢
    have h1 := ih _ h
    rw [h1] at h ⊢
    exact fbmStep_none_eq cfg θ nt st q h

theorem fbmFold_some_pos (cfg : List (String × CompanyRules)) (θ : Rat) (nt : String) :
    ∀ (ps : List (String × String)) (st : Option String × Rat × String),
      0 ≤ st.2.1 → (st.1 ≠ none → 0 < st.2.1) →
      ((ps.foldl (fbmStep cfg θ nt) st).1 ≠ none →
        0 < (ps.foldl (fbmStep cfg θ nt) st).2.1) := by
  intro ps
  induction ps with
  | nil => intro st _ h2; exact h2
  | cons q qs ih =>
    intro st h1 h2
    rw [List.foldl_cons]
    refine ih _ (le_trans h1 (fbmStep_score_le cfg θ nt st q)) ?_
    intro hsome
    rcases fbmStep_cases cfg θ nt st q with hq | ⟨_, hlt, hq⟩
    · rw [hq] at hsome ⊢; exact h2 hsome
    · rw [hq]; exact lt_of_le_of_lt h1 hlt

/-! `find_best_match` top-level facts. -/

theorem fbm_eq_fold (m : Matcher) (x : String) (h1 : ¬m.companies.isEmpty = true)
    (h2 : ¬normalize x = "") :
    findBestMatch m x =
      (allPairs m.companies).foldl (fbmStep m.config m.threshold (normalize x)) (none, 0, "") := by
  unfold findBestMatch
  rw [if_neg h1, if_neg h2]

theorem fbm_eq_default (m : Matcher) (x : String)
    (h : m.companies.isEmpty = true ∨ normalize x = "") :
    findBestMatch m x = (none, 0, "") := by
  unfold findBestMatch
  rcases h with h | h
  · rw [if_pos h]
  · by_cases h1 : m.companies.isEmpty = true
    · rw [if_pos h1]
    · rw [if_neg h1, if_pos h]

theorem fbm_score_nonneg (m : Matcher) (x : String) : 0 ≤ (findBestMatch m x).2.1 := by
  by_cases h : m.companies.isEmpty = true ∨ normalize x = ""
  · rw [fbm_eq_default m x h]
  · push_neg at h
    rw [fbm_eq_fold m x h.1 h.2]
    exact fbmFold_score_mono _ _ _ _ _

theorem fbm_none_iff_zero (m : Matcher) (x : String) :
    (findBestMatch m x).1 = none ↔ (findBestMatch m x).2.1 = 0 := by
  by_cases h : m.companies.isEmpty = true ∨ normalize x = ""
  · rw [fbm_eq_default m x h]; simp
  · push_neg at h
    rw [fbm_eq_fold m x h.1 h.2]
    constructor
    · intro hn
      rw [fbmFold_none_eq _ _ _ _ _ hn]
    · intro hz
      by_contra hn
      have := fbmFold_some_pos m.config m.threshold (normalize x) (allPairs m.companies)
        (none, 0, "") (le_refl 0) (fun hc => absurd rfl hc) hn
      rw [hz] at this
      exact lt_irrefl 0 this

theorem fbm_score_le_100 (m : Matcher) (x : String) : (findBestMatch m x).2.1 ≤ 100 := by
  by_cases h : m.companies.isEmpty = true ∨ normalize x = ""
  · rw [fbm_eq_default m x h]; norm_num
  · push_neg at h
    rw [fbm_eq_fold m x h.1 h.2]
    rcases fbmFold_score_cases m.config m.threshold (normalize x) (allPairs m.companies)
        (none, 0, "") with hc | ⟨p, _, _, hc⟩
    · rw [hc]; norm_num
    · rw [hc]; exact pairScore_le_100 _ _

theorem fbm_threshold_le (m : Matcher) (x : String)
    (h : (findBestMatch m x).1 ≠ none) : m.threshold ≤ (findBestMatch m x).2.1 := by
  by_cases hd : m.companies.isEmpty = true ∨ normalize x = ""
  · rw [fbm_eq_default m x hd] at h; exact absurd rfl h
  · push_neg at hd
    have hz : (findBestMatch m x).2.1 ≠ 0 := fun hz =>
      h ((fbm_none_iff_zero m x).mpr hz)
    rw [fbm_eq_fold m x hd.1 hd.2] at hz ⊢
    rcases fbmFold_score_cases m.config m.threshold (normalize x) (allPairs m.companies)
        (none, 0, "") with hc | ⟨p, _, he, hc⟩
    · exact absurd hc hz
    · rw [hc]; exact he.2.1

/-! ## Claim C2: exact aliases score 100 -/

/-- **C2** (amended).  If the string `a` is stored verbatim in a registered
company's alias list, is nonempty and normalization-fixed (every alias the
matcher stores is a normalization output; the rare exception to fixedness is
a generated acronym that is itself a rewritable legal form), the threshold
is at most 100, and `a` passes the company's own validity rule (its required
keywords occur in `a` and `a` is not one of its excluded standalone words),
then `find_best_match(a)` returns a match with score exactly 100: the exact
normalized-equality override beats every fuzzy score, which never exceeds
100. -/
theorem c2_exact_alias_scores_100 (m : Matcher) (c a : String) (als : List String)
    (hmem : (c, als) ∈ m.companies) (ha : a ∈ als) (hne : a ≠ "")
    (hfix : normalize a = a) (hthr : m.threshold ≤ 100)
    (hvalid : isValidMatch m.config c a a = true) :
    (findBestMatch m a).2.1 = 100 ∧ (findBestMatch m a).1 ≠ none := by
  have hpairs : (c, a) ∈ allPairs m.companies := by
    unfold allPairs
    exact List.mem_flatMap.mpr ⟨(c, als), hmem, List.mem_map.mpr ⟨a, ha, rfl⟩⟩
  have hnonempty : ¬m.companies.isEmpty = true := by
    intro h
    rw [List.isEmpty_iff] at h
    rw [h] at hmem
    cases hmem
  have hnt : ¬normalize a = "" := by rw [hfix]; exact hne
  have hps : pairScore (normalize a).data a.data = 100 := by
    rw [hfix]; exact pairScore_exact a.data
  have helig : eligiblePair m.config m.threshold (normalize a) (c, a) := by
    refine ⟨hne, ?_, ?_⟩
    · rw [hps]; exact hthr
    · rw [hfix]; exact hvalid
  have hge : (100 : Rat) ≤ (findBestMatch m a).2.1 := by
    rw [fbm_eq_fold m a hnonempty hnt]
    have := fbmFold_score_ge m.config m.threshold (normalize a) (allPairs m.companies)
      (none, 0, "") (c, a) hpairs helig
    rwa [hps] at this
  have hle := fbm_score_le_100 m a
  have hscore : (findBestMatch m a).2.1 = 100 := le_antisymm hle hge
  refine ⟨hscore, ?_⟩
  intro hn
  rw [(fbm_none_iff_zero m a).mp hn] at hscore
  norm_num at hscore

/-- **C2 witness**: the concrete matcher with company "Acme" and verbatim
alias "acme" (no validity rules) scores 100 on input "acme". -/
theorem c2_exact_alias_scores_100_witness :
    (findBestMatch ⟨92, [("Acme", ["acme"])], []⟩ "acme").2.1 = 100 ∧
    (findBestMatch ⟨92, [("Acme", ["acme"])], []⟩ "acme").1 ≠ none :=
  c2_exact_alias_scores_100 ⟨92, [("Acme", ["acme"])], []⟩ "Acme" "acme" ["acme"]
    (by decide) (by decide) (by decide) (by decide) (by decide) (by decide)

/-- **C2 counterexample**: the company "Acme Corp" has `required_keywords =
["report"]` and stores the alias "acme" verbatim; `find_best_match("acme")`
computes the exact-equality score 100 but the validity rule rejects the
candidate, so no match is returned at all — score 0, not 100. -/
theorem c2_required_keyword_blocks_exact_alias :
    ("Acme Corp", ["acme"]) ∈
      (⟨92, [("Acme Corp", ["acme"])], [("Acme Corp", ⟨["report"], []⟩)]⟩ : Matcher).companies ∧
    "acme" ∈ ["acme"] ∧
    findBestMatch ⟨92, [("Acme Corp", ["acme"])], [("Acme Corp", ⟨["report"], []⟩)]⟩ "acme" =
      (none, 0, "") := by decide

/-! ## Threshold monotonicity of the matcher -/

theorem eligiblePair_mono (cfg : List (String × CompanyRules)) (nt : String)
    (p : String × String) {t t' : Rat} (h : t ≤ t')
    (he : eligiblePair cfg t' nt p) : eligiblePair cfg t nt p :=
  ⟨he.1, le_trans h he.2.1, he.2.2⟩

theorem fbm_upd_eq_fold (m : Matcher) (t : Rat) (x : String)
    (h1 : ¬m.companies.isEmpty = true) (h2 : ¬normalize x = "") :
    findBestMatch {m with threshold := t} x =
      (allPairs m.companies).foldl (fbmStep m.config t (normalize x)) (none, 0, "") :=
  fbm_eq_fold _ x h1 h2

theorem fbm_score_mono (m : Matcher) (x : String) {t t' : Rat} (h : t ≤ t') :
    (findBestMatch {m with threshold := t'} x).2.1 ≤
      (findBestMatch {m with threshold := t} x).2.1 := by
  by_cases hd : m.companies.isEmpty = true ∨ normalize x = ""
  · rw [fbm_eq_default {m with threshold := t'} x hd,
      fbm_eq_default {m with threshold := t} x hd]
  · push_neg at hd
    rw [fbm_upd_eq_fold m t' x hd.1 hd.2, fbm_upd_eq_fold m t x hd.1 hd.2]
    rcases fbmFold_score_cases m.config t' (normalize x) (allPairs m.companies)
        (none, 0, "") with hc | ⟨p, hp, he, hc⟩
    · rw [hc]
      exact fbmFold_score_mono m.config t (normalize x) (allPairs m.companies) (none, 0, "")
    · rw [hc]
      exact fbmFold_score_ge m.config t (normalize x) (allPairs m.companies) (none, 0, "")
        p hp (eligiblePair_mono m.config (normalize x) p h he)

theorem fbm_some_mono (m : Matcher) (x : String) {t t' : Rat} (h : t ≤ t')
    (hs : (findBestMatch {m with threshold := t'} x).1 ≠ none) :
    (findBestMatch {m with threshold := t} x).1 ≠ none := by
  intro hn
  apply hs
  rw [fbm_none_iff_zero] at hn ⊢
  exact le_antisymm (hn ▸ fbm_score_mono m x h) (fbm_score_nonneg _ x)

theorem testText_ne_none_iff (m : Matcher) (t : String) :
    testText m t ≠ none ↔
      ((findBestMatch m t).1 ≠ none ∧ m.threshold ≤ (findBestMatch m t).2.1) := by
  unfold testText
  rcases hm : (findBestMatch m t).1 with _ | c
  · simp
  · by_cases hθ : m.threshold ≤ (findBestMatch m t).2.1
    · simp [hθ]
    · simp [hθ]

theorem testText_mono (m : Matcher) (x : String) {t t' : Rat} (h : t ≤ t')
    (hs : testText {m with threshold := t'} x ≠ none) :
    testText {m with threshold := t} x ≠ none := by
  rw [testText_ne_none_iff] at hs ⊢
  exact ⟨fbm_some_mono m x h hs.1,
    le_trans h (le_trans hs.2 (fbm_score_mono m x h))⟩

theorem pathTestText_ne_none_iff (m : Matcher) (x : String) :
    pathTestText m x ≠ none ↔
      ((findBestMatch m x).1 ≠ none ∧ m.threshold ≤ (findBestMatch m x).2.1 ∧
        m.threshold ≤ rmaxPy (scoreSub (findBestMatch m x).2.1 10) 0) := by
  unfold pathTestText
  rcases hm : (findBestMatch m x).1 with _ | c
  · simp
  · by_cases h1 : m.threshold ≤ (findBestMatch m x).2.1
    · by_cases h2 : m.threshold ≤ rmaxPy (scoreSub (findBestMatch m x).2.1 10) 0
      · simp [h1, h2]
      · simp [h1, h2]
    · simp [h1]

theorem pathTestText_mono (m : Matcher) (x : String) {t t' : Rat} (h : t ≤ t')
    (hs : pathTestText {m with threshold := t'} x ≠ none) :
    pathTestText {m with threshold := t} x ≠ none := by
  rw [pathTestText_ne_none_iff] at hs ⊢
  obtain ⟨h1, h2, h3⟩ := hs
  refine ⟨fbm_some_mono m x h h1, le_trans h (le_trans h2 (fbm_score_mono m x h)), ?_⟩
  refine le_trans h (le_trans h3 ?_)
  rw [rmaxPy_eq_max, rmaxPy_eq_max, scoreSub_eq, scoreSub_eq]
  exact max_le_max (by linarith [fbm_score_mono m x h]) (le_refl 0)

/-! ## Sorting and deduplication -/

theorem insertByScore_perm (e : String × Rat × String) :
    ∀ l, (insertByScore e l).Perm (e :: l)
  | [] => List.Perm.refl _
  | x :: xs => by
    unfold insertByScore
    by_cases h : x.2.1 ≤ e.2.1
    · rw [if_pos h]
    · rw [if_neg h]
      exact ((insertByScore_perm e xs).cons x).trans (List.Perm.swap e x xs)

theorem sortByScoreDesc_perm (l : List (String × Rat × String)) :
    (sortByScoreDesc l).Perm l := by
  induction l with
  | nil => exact List.Perm.refl _
  | cons x xs ih =>
    exact (insertByScore_perm x (sortByScoreDesc xs)).trans (ih.cons x)

theorem sortByScoreDesc_eq_nil_iff (l : List (String × Rat × String)) :
    sortByScoreDesc l = [] ↔ l = [] := by
  constructor
  · intro h
    have h1 := (sortByScoreDesc_perm l).symm
    rw [h] at h1
    exact h1.eq_nil
  · intro h
    rw [h]
    rfl

theorem insertByScore_sorted (e : String × Rat × String) :
    ∀ l, l.Pairwise (fun a b => b.2.1 ≤ a.2.1) →
      (insertByScore e l).Pairwise (fun a b => b.2.1 ≤ a.2.1)
  | [], _ => List.pairwise_singleton _ _
  | x :: xs, h => by
    unfold insertByScore
    obtain ⟨h1, h2⟩ := List.pairwise_cons.mp h
    by_cases hx : x.2.1 ≤ e.2.1
    · rw [if_pos hx]
      refine List.pairwise_cons.mpr ⟨?_, h⟩
      intro b hb
      rcases List.mem_cons.mp hb with rfl | hb2
      · exact hx
      · exact le_trans (h1 b hb2) hx
    · rw [if_neg hx]
      refine List.pairwise_cons.mpr ⟨?_, insertByScore_sorted e xs h2⟩
      intro b hb
      rcases List.mem_cons.mp ((insertByScore_perm e xs).mem_iff.mp hb) with rfl | h3
      · exact le_of_lt (not_le.mp hx)
      · exact h1 b h3

theorem sortByScoreDesc_sorted (l : List (String × Rat × String)) :
    (sortByScoreDesc l).Pairwise (fun a b => b.2.1 ≤ a.2.1) := by
  induction l with
  | nil => exact List.Pairwise.nil
  | cons x xs ih => exact insertByScore_sorted x _ ih

theorem dedupStep_length (acc : List (String × Rat × String)) (e : String × Rat × String) :
    acc.length ≤ (dedupStep acc e).length := by
  unfold dedupStep
  by_cases h : acc.any (fun x => x.1 == e.1) = true
  · rw [if_pos h, List.length_map]
  · rw [if_neg h, List.length_append]
    omega

theorem dedupFold_length (l : List (String × Rat × String)) :
    ∀ acc, acc.length ≤ (l.foldl dedupStep acc).length := by
  induction l with
  | nil => intro acc; exact le_refl _
  | cons e es ih =>
    intro acc
    exact le_trans (dedupStep_length acc e) (ih _)

theorem dedupStep_nil (e : String × Rat × String) : dedupStep [] e = [e] := by
  unfold dedupStep
  rw [List.any_nil]
  rfl

theorem dedupBest_eq_nil_iff (l : List (String × Rat × String)) :
    dedupBest l = [] ↔ l = [] := by
  constructor
  · intro h
    cases l with
    | nil => rfl
    | cons e es =>
      exfalso
      have h4 : dedupBest (e :: es) = es.foldl dedupStep [e] := by
        unfold dedupBest
        rw [List.foldl_cons, dedupStep_nil]
      have h3 := dedupFold_length es [e]
      rw [← h4, h] at h3
      simp at h3
  · intro h
    rw [h]
    rfl

theorem dedupStep_mem {acc : List (String × Rat × String)} {e x : String × Rat × String}
    (h : x ∈ dedupStep acc e) : x ∈ acc ∨ x = e := by
  unfold dedupStep at h
  by_cases ha : acc.any (fun y => y.1 == e.1) = true
  · rw [if_pos ha] at h
    obtain ⟨y, hy, hxy⟩ := List.mem_map.mp h
    by_cases hc : (y.1 == e.1 && decide (y.2.1 < e.2.1)) = true
    · rw [if_pos hc] at hxy
      right
      rw [Bool.and_eq_true] at hc
      obtain ⟨hb, _⟩ := hc
      have h1 : y.1 = e.1 := eq_of_beq hb
      rw [h1] at hxy
      subst hxy
      rfl
    · rw [if_neg hc] at hxy
      exact Or.inl (hxy ▸ hy)
  · rw [if_neg ha] at h
    rcases List.mem_append.mp h with h1 | h1
    · exact Or.inl h1
    · exact Or.inr (List.mem_singleton.mp h1)

theorem dedupFold_mem (l : List (String × Rat × String)) :
    ∀ acc x, x ∈ l.foldl dedupStep acc → x ∈ acc ∨ x ∈ l := by
  induction l with
  | nil => intro acc x h; exact Or.inl h
  | cons e es ih =>
    intro acc x h
    rw [List.foldl_cons] at h
    rcases ih _ x h with h1 | h1
    · rcases dedupStep_mem h1 with h2 | h2
      · exact Or.inl h2
      · exact Or.inr (by rw [h2]; exact List.mem_cons_self e es)
    · exact Or.inr (List.mem_cons_of_mem e h1)

theorem dedupBest_mem {l : List (String × Rat × String)} {x : String × Rat × String}
    (h : x ∈ dedupBest l) : x ∈ l := by
  rcases dedupFold_mem l [] x h with h1 | h1
  · exact absurd h1 (List.not_mem_nil x)
  · exact h1

theorem dedupStep_keys (acc : List (String × Rat × String)) (e : String × Rat × String)
    (h : (acc.map Prod.fst).Nodup) : ((dedupStep acc e).map Prod.fst).Nodup := by
  unfold dedupStep
  by_cases ha : acc.any (fun y => y.1 == e.1) = true
  · rw [if_pos ha, List.map_map]
    have he : (Prod.fst ∘ fun x : String × Rat × String =>
        if x.1 == e.1 && decide (x.2.1 < e.2.1) then (x.1, e.2.1, e.2.2) else x) =
        (Prod.fst : String × Rat × String → String) := by
      funext x
      by_cases hc : (x.1 == e.1 && decide (x.2.1 < e.2.1)) = true
      · simp [Function.comp, hc]
      · simp [Function.comp, hc]
    rw [he]
    exact h
  · rw [if_neg ha, List.map_append]
    rw [List.nodup_append]
    refine ⟨h, List.nodup_singleton _, ?_⟩
    intro a haa hab
    rw [List.map_singleton, List.mem_singleton] at hab
    subst hab
    obtain ⟨y, hy, hya⟩ := List.mem_map.mp haa
    exact ha (List.any_eq_true.mpr ⟨y, hy, beq_iff_eq.mpr hya⟩)

theorem dedupFold_keys (l : List (String × Rat × String)) :
    ∀ acc, (acc.map Prod.fst).Nodup → ((l.foldl dedupStep acc).map Prod.fst).Nodup := by
  induction l with
  | nil => intro acc h; exact h
  | cons e es ih =>
    intro acc h
    rw [List.foldl_cons]
    exact ih _ (dedupStep_keys acc e h)

theorem dedupBest_keys (l : List (String × Rat × String)) :
    ((dedupBest l).map Prod.fst).Nodup :=
  dedupFold_keys l [] (by simp)

/-! ## Anatomy of the extraction tiers -/

theorem extractFromFilename_eq (m : Matcher) (f : String) :
    extractFromFilename m f =
      if (findBestMatch m f).1.isSome = true ∧ m.threshold ≤ (findBestMatch m f).2.1 ∧
          95 ≤ (findBestMatch m f).2.1 then
        [((findBestMatch m f).1.getD "", (findBestMatch m f).2.1, (findBestMatch m f).2.2)]
      else
        sortByScoreDesc (dedupBest
          ((extractTier1 m f ++ extractTier2 m (extractParts f)) ++
            extractTier3 m (extractParts f)
              (extractTier1 m f ++ extractTier2 m (extractParts f)))) := rfl

theorem extractFromPath_eq (m : Matcher) (p : String) :
    extractFromPath m p =
      sortByScoreDesc (dedupBest
        ((extractFromFilename m ((splitPathParts p).getLastD "")).map boostEntry ++
          (if ((extractFromFilename m ((splitPathParts p).getLastD "")).map
              boostEntry).isEmpty = true then
            ((splitPathParts p).dropLast.flatMap fun seg => extractParts seg).filterMap
              (pathTestText m)
          else []))) := rfl

theorem extractTier1_ne_nil_iff (m : Matcher) (f : String) :
    extractTier1 m f ≠ [] ↔
      ((findBestMatch m f).1 ≠ none ∧ m.threshold ≤ (findBestMatch m f).2.1) := by
  unfold extractTier1
  rcases hm : (findBestMatch m f).1 with _ | c
  · simp
  · by_cases hθ : m.threshold ≤ (findBestMatch m f).2.1
    · simp [hθ]
    · simp [hθ]

theorem extractTier1_mono (m : Matcher) (f : String) {t t' : Rat} (h : t ≤ t')
    (hs : extractTier1 {m with threshold := t'} f ≠ []) :
    extractTier1 {m with threshold := t} f ≠ [] := by
  rw [extractTier1_ne_nil_iff] at hs ⊢
  exact ⟨fbm_some_mono m f h hs.1,
    le_trans h (le_trans hs.2 (fbm_score_mono m f h))⟩

theorem extractTier2_mono (m : Matcher) (parts : List String) {t t' : Rat} (h : t ≤ t')
    (hs : extractTier2 {m with threshold := t'} parts ≠ []) :
    extractTier2 {m with threshold := t} parts ≠ [] := by
  unfold extractTier2 at hs ⊢
  by_cases hl : 1 < parts.length
  · rw [if_pos hl] at hs ⊢
    intro hnil
    apply hs
    rw [List.filterMap_eq_nil_iff] at hnil ⊢
    intro a ha
    by_contra hne
    exact absurd (hnil a ha) (testText_mono m a h hne)
  · rw [if_neg hl] at hs
    exact absurd rfl hs

theorem extractTier3_sub (m : Matcher) (parts : List String)
    (m1 : List (String × Rat × String)) (hs : extractTier3 m parts m1 ≠ []) :
    parts.filterMap (fun p => if validSingleWord p then testText m p else none) ≠ [] := by
  unfold extractTier3 at hs
  by_cases hg : m1.isEmpty = true ∨ maxScore m1 < scoreAdd m.threshold 5
  · rw [if_pos hg] at hs
    exact hs
  · rw [if_neg hg] at hs
    exact absurd rfl hs

theorem extractTier3_gate (m : Matcher) (parts : List String)
    (m1 : List (String × Rat × String))
    (hfm : parts.filterMap (fun p => if validSingleWord p then testText m p else none) ≠ []) :
    m1 ≠ [] ∨ extractTier3 m parts m1 ≠ [] := by
  unfold extractTier3
  by_cases hg : m1.isEmpty = true ∨ maxScore m1 < scoreAdd m.threshold 5
  · rw [if_pos hg]
    exact Or.inr hfm
  · left
    intro hm1
    exact hg (Or.inl (by rw [hm1]; rfl))

theorem singleWordFM_mono (m : Matcher) (parts : List String) {t t' : Rat} (h : t ≤ t')
    (hs : parts.filterMap
      (fun p => if validSingleWord p then testText {m with threshold := t'} p else none) ≠ []) :
    parts.filterMap
      (fun p => if validSingleWord p then testText {m with threshold := t} p else none) ≠ [] := by
  intro hnil
  apply hs
  rw [List.filterMap_eq_nil_iff] at hnil ⊢
  intro a ha
  by_cases hv : validSingleWord a = true
  · rw [if_pos hv]
    by_contra hne
    have h0 := hnil a ha
    rw [if_pos hv] at h0
    exact absurd h0 (testText_mono m a h hne)
  · rw [if_neg hv]

theorem extractFromFilename_ne_nil_iff (m : Matcher) (f : String) :
    extractFromFilename m f ≠ [] ↔
      (extractTier1 m f ≠ [] ∨ extractTier2 m (extractParts f) ≠ [] ∨
        extractTier3 m (extractParts f)
          (extractTier1 m f ++ extractTier2 m (extractParts f)) ≠ []) := by
  rw [extractFromFilename_eq]
  by_cases hc : (findBestMatch m f).1.isSome = true ∧ m.threshold ≤ (findBestMatch m f).2.1 ∧
      95 ≤ (findBestMatch m f).2.1
  · rw [if_pos hc]
    constructor
    · intro _
      left
      rw [extractTier1_ne_nil_iff]
      exact ⟨Option.isSome_iff_ne_none.mp hc.1, hc.2.1⟩
    · intro _
      simp
  · rw [if_neg hc]
    rw [Ne, sortByScoreDesc_eq_nil_iff, dedupBest_eq_nil_iff, List.append_eq_nil,
      List.append_eq_nil]
    constructor
    · intro h
      by_cases h1 : extractTier1 m f = []
      · by_cases h2 : extractTier2 m (extractParts f) = []
        · exact Or.inr (Or.inr (fun h3 => h ⟨⟨h1, h2⟩, h3⟩))
        · exact Or.inr (Or.inl h2)
      · exact Or.inl h1
    · rintro (h1 | h2 | h3) ⟨⟨e1, e2⟩, e3⟩
      · exact h1 e1
      · exact h2 e2
      · exact h3 e3

theorem extractFromFilename_mono (m : Matcher) (f : String) {t t' : Rat} (h : t ≤ t')
    (hs : extractFromFilename {m with threshold := t'} f ≠ []) :
    extractFromFilename {m with threshold := t} f ≠ [] := by
  rw [extractFromFilename_ne_nil_iff] at hs ⊢
  rcases hs with h1 | h2 | h3
  · exact Or.inl (extractTier1_mono m f h h1)
  · exact Or.inr (Or.inl (extractTier2_mono m (extractParts f) h h2))
  · have h4 := extractTier3_sub _ _ _ h3
    have h5 := singleWordFM_mono m (extractParts f) h h4
    rcases extractTier3_gate {m with threshold := t} (extractParts f)
        (extractTier1 {m with threshold := t} f ++
          extractTier2 {m with threshold := t} (extractParts f)) h5 with h6 | h6
    · by_cases h7 : extractTier1 {m with threshold := t} f = []
      · refine Or.inr (Or.inl ?_)
        intro h8
        exact h6 (by rw [h7, h8]; rfl)
      · exact Or.inl h7
    · exact Or.inr (Or.inr h6)

theorem extractFromPath_ne_nil_iff (m : Matcher) (p : String) :
    extractFromPath m p ≠ [] ↔
      (extractFromFilename m ((splitPathParts p).getLastD "") ≠ [] ∨
        ((splitPathParts p).dropLast.flatMap fun seg => extractParts seg).filterMap
          (pathTestText m) ≠ []) := by
  rw [extractFromPath_eq, Ne, sortByScoreDesc_eq_nil_iff, dedupBest_eq_nil_iff,
    List.append_eq_nil]
  by_cases hb : ((extractFromFilename m ((splitPathParts p).getLastD "")).map
      boostEntry).isEmpty = true
  · rw [if_pos hb]
    have hf : extractFromFilename m ((splitPathParts p).getLastD "") = [] :=
      List.map_eq_nil_iff.mp (List.isEmpty_iff.mp hb)
    constructor
    · intro h
      right
      intro hfm
      exact h ⟨List.isEmpty_iff.mp hb, hfm⟩
    · intro h hx
      rcases h with h | h
      · exact h hf
      · exact h hx.2
  · rw [if_neg hb]
    have hf : extractFromFilename m ((splitPathParts p).getLastD "") ≠ [] := by
      intro h0
      apply hb
      rw [h0]
      rfl
    constructor
    · intro _
      exact Or.inl hf
    · intro _ hx
      exact hf (List.map_eq_nil_iff.mp hx.1)

theorem extractFromPath_mono (m : Matcher) (p : String) {t t' : Rat} (h : t ≤ t')
    (hs : extractFromPath {m with threshold := t'} p ≠ []) :
    extractFromPath {m with threshold := t} p ≠ [] := by
  rw [extractFromPath_ne_nil_iff] at hs ⊢
  rcases hs with h1 | h1
  · exact Or.inl (extractFromFilename_mono m _ h h1)
  · right
    intro hnil
    apply h1
    rw [List.filterMap_eq_nil_iff] at hnil ⊢
    intro a ha
    by_contra hne
    exact absurd (hnil a ha) (pathTestText_mono m a h hne)

/-! ## Claim C4: threshold monotonicity -/

/-- **C4.**  With the registered companies and the inputs fixed, any text
that yields a match from `find_best_match` at threshold `t'` also yields one
at any lower threshold `t`, and likewise any filename (resp. full path)
whose extraction ranking is non-empty at `t'` still has a non-empty ranking
at `t`: raising the threshold can only remove matches, never add new
ones. -/
theorem c4_threshold_monotonicity (m : Matcher) (x f p : String) {t t' : Rat}
    (h : t ≤ t') :
    ((findBestMatch {m with threshold := t'} x).1 ≠ none →
      (findBestMatch {m with threshold := t} x).1 ≠ none) ∧
    (extractFromFilename {m with threshold := t'} f ≠ [] →
      extractFromFilename {m with threshold := t} f ≠ []) ∧
    (extractFromPath {m with threshold := t'} p ≠ [] →
      extractFromPath {m with threshold := t} p ≠ []) :=
  ⟨fun hx => fbm_some_mono m x h hx,
   fun hf => extractFromFilename_mono m f h hf,
   fun hp => extractFromPath_mono m p h hp⟩

set_option maxRecDepth 40000 in
theorem c4_threshold_monotonicity_witness :
    (90 : Rat) ≤ 92 ∧
    extractFromPath {(⟨92, [("Acme", ["acme"])], []⟩ : Matcher) with threshold := 90}
      "docs/acme.pdf" ≠ [] := by
  refine ⟨by norm_num, ?_⟩
  refine (c4_threshold_monotonicity ⟨92, [("Acme", ["acme"])], []⟩ "acme" "acme.pdf"
    "docs/acme.pdf" (by norm_num : (90 : Rat) ≤ 92)).2.2 ?_
  decide

/-! ## Entry bounds of the extraction rankings -/

theorem extractTier1_mem {m : Matcher} {f : String} {e : String × Rat × String}
    (h : e ∈ extractTier1 m f) : m.threshold ≤ e.2.1 ∧ e.2.1 ≤ 100 := by
  unfold extractTier1 at h
  rcases hm : (findBestMatch m f).1 with _ | c
  · rw [hm] at h
    cases h
  · rw [hm] at h
    dsimp only at h
    by_cases hθ : m.threshold ≤ (findBestMatch m f).2.1
    · rw [if_pos hθ] at h
      rw [List.mem_singleton] at h
      subst h
      exact ⟨hθ, fbm_score_le_100 m f⟩
    · rw [if_neg hθ] at h
      cases h

theorem testText_mem {m : Matcher} {t : String} {e : String × Rat × String}
    (h : testText m t = some e) : m.threshold ≤ e.2.1 ∧ e.2.1 ≤ 100 := by
  unfold testText at h
  rcases hm : (findBestMatch m t).1 with _ | c
  · rw [hm] at h
    cases h
  · rw [hm] at h
    dsimp only at h
    by_cases hθ : m.threshold ≤ (findBestMatch m t).2.1
    · rw [if_pos hθ] at h
      injection h with h1
      subst h1
      exact ⟨hθ, fbm_score_le_100 m t⟩
    · rw [if_neg hθ] at h
      cases h

theorem pathTestText_mem {m : Matcher} {x : String} {e : String × Rat × String}
    (h : pathTestText m x = some e) : m.threshold ≤ e.2.1 ∧ e.2.1 ≤ 100 := by
  unfold pathTestText at h
  rcases hm : (findBestMatch m x).1 with _ | c
  · rw [hm] at h
    cases h
  · rw [hm] at h
    dsimp only at h
    by_cases h1 : m.threshold ≤ (findBestMatch m x).2.1
    · rw [if_pos h1] at h
      by_cases h2 : m.threshold ≤ rmaxPy (scoreSub (findBestMatch m x).2.1 10) 0
      · rw [if_pos h2] at h
        injection h with h3
        subst h3
        refine ⟨h2, ?_⟩
        show rmaxPy (scoreSub (findBestMatch m x).2.1 10) 0 ≤ 100
        rw [rmaxPy_eq_max, scoreSub_eq]
        have h4 := fbm_score_le_100 m x
        refine max_le (by push_cast; linarith) (by norm_num)
      · rw [if_neg h2] at h
        cases h
    · rw [if_neg h1] at h
      cases h

theorem extractFromFilename_mem {m : Matcher} {f : String} {e : String × Rat × String}
    (h : e ∈ extractFromFilename m f) : m.threshold ≤ e.2.1 ∧ e.2.1 ≤ 100 := by
  rw [extractFromFilename_eq] at h
  by_cases hc : (findBestMatch m f).1.isSome = true ∧ m.threshold ≤ (findBestMatch m f).2.1 ∧
      95 ≤ (findBestMatch m f).2.1
  · rw [if_pos hc] at h
    rw [List.mem_singleton] at h
    subst h
    exact ⟨hc.2.1, fbm_score_le_100 m f⟩
  · rw [if_neg hc] at h
    have h1 := dedupBest_mem ((sortByScoreDesc_perm _).mem_iff.mp h)
    rcases List.mem_append.mp h1 with h2 | h2
    · rcases List.mem_append.mp h2 with h3 | h3
      · exact extractTier1_mem h3
      · unfold extractTier2 at h3
        by_cases hl : 1 < (extractParts f).length
        · rw [if_pos hl] at h3
          obtain ⟨a, _, ha⟩ := List.mem_filterMap.mp h3
          exact testText_mem ha
        · rw [if_neg hl] at h3
          cases h3
    · unfold extractTier3 at h2
      by_cases hg : (extractTier1 m f ++ extractTier2 m (extractParts f)).isEmpty = true ∨
          maxScore (extractTier1 m f ++ extractTier2 m (extractParts f)) <
            scoreAdd m.threshold 5
      · rw [if_pos hg] at h2
        obtain ⟨a, _, ha⟩ := List.mem_filterMap.mp h2
        by_cases hv : validSingleWord a = true
        · rw [if_pos hv] at ha
          exact testText_mem ha
        · rw [if_neg hv] at ha
          cases ha
      · rw [if_neg hg] at h2
        cases h2

theorem extractFromPath_mem {m : Matcher} {p : String} {e : String × Rat × String}
    (h : e ∈ extractFromPath m p) :
    m.threshold ≤ e.2.1 ∧ e.2.1 ≤ 100 := by
  rw [extractFromPath_eq] at h
  have h1 := dedupBest_mem ((sortByScoreDesc_perm _).mem_iff.mp h)
  rcases List.mem_append.mp h1 with h2 | h2
  · obtain ⟨y, hy, hye⟩ := List.mem_map.mp h2
    obtain ⟨hy1, hy2⟩ := extractFromFilename_mem hy
    subst hye
    unfold boostEntry
    constructor
    · show m.threshold ≤ rminPy (scoreAdd y.2.1 15) 100
      rw [rminPy_eq_min, scoreAdd_eq]
      exact le_min (by push_cast; linarith) (le_trans hy1 hy2)
    · show rminPy (scoreAdd y.2.1 15) 100 ≤ 100
      rw [rminPy_eq_min, scoreAdd_eq]
      exact min_le_right _ _
  · by_cases hb : ((extractFromFilename m ((splitPathParts p).getLastD "")).map
        boostEntry).isEmpty = true
    · rw [if_pos hb] at h2
      obtain ⟨a, _, ha⟩ := List.mem_filterMap.mp h2
      exact pathTestText_mem ha
    · rw [if_neg hb] at h2
      cases h2

theorem extractFromFilename_keys_nodup (m : Matcher) (f : String) :
    ((extractFromFilename m f).map Prod.fst).Nodup := by
  rw [extractFromFilename_eq]
  by_cases hc : (findBestMatch m f).1.isSome = true ∧ m.threshold ≤ (findBestMatch m f).2.1 ∧
      95 ≤ (findBestMatch m f).2.1
  · rw [if_pos hc, List.map_singleton]
    exact List.nodup_singleton _
  · rw [if_neg hc]
    exact ((sortByScoreDesc_perm _).map Prod.fst).nodup_iff.mpr (dedupBest_keys _)

theorem extractFromFilename_sorted (m : Matcher) (f : String) :
    (extractFromFilename m f).Pairwise (fun a b => b.2.1 ≤ a.2.1) := by
  rw [extractFromFilename_eq]
  by_cases hc : (findBestMatch m f).1.isSome = true ∧ m.threshold ≤ (findBestMatch m f).2.1 ∧
      95 ≤ (findBestMatch m f).2.1
  · rw [if_pos hc]
    exact List.pairwise_singleton _ _
  · rw [if_neg hc]
    exact sortByScoreDesc_sorted _

theorem extractFromPath_keys_nodup (m : Matcher) (p : String) :
    ((extractFromPath m p).map Prod.fst).Nodup := by
  rw [extractFromPath_eq]
  exact ((sortByScoreDesc_perm _).map Prod.fst).nodup_iff.mpr (dedupBest_keys _)

theorem extractFromPath_sorted (m : Matcher) (p : String) :
    (extractFromPath m p).Pairwise (fun a b => b.2.1 ≤ a.2.1) := by
  rw [extractFromPath_eq]
  exact sortByScoreDesc_sorted _

/-! ## Claim C9: ranking output invariants -/

/-- **C9.**  Every list returned by `extract_company_names_from_filename`
and by `extract_company_names_from_path` names each company at most once, is
sorted in non-increasing order of score, and every score in it lies between
the configured threshold and 100: the +15 filename bonus is capped at 100
and the -10 path penalty is re-checked against the threshold. -/
theorem c9_ranking_invariants (m : Matcher) (f p : String) :
    (((extractFromFilename m f).map Prod.fst).Nodup ∧
      (extractFromFilename m f).Pairwise (fun a b => b.2.1 ≤ a.2.1) ∧
      ∀ e ∈ extractFromFilename m f, m.threshold ≤ e.2.1 ∧ e.2.1 ≤ 100) ∧
    (((extractFromPath m p).map Prod.fst).Nodup ∧
      (extractFromPath m p).Pairwise (fun a b => b.2.1 ≤ a.2.1) ∧
      ∀ e ∈ extractFromPath m p, m.threshold ≤ e.2.1 ∧ e.2.1 ≤ 100) :=
  ⟨⟨extractFromFilename_keys_nodup m f, extractFromFilename_sorted m f,
    fun _ he => extractFromFilename_mem he⟩,
   ⟨extractFromPath_keys_nodup m p, extractFromPath_sorted m p,
    fun _ he => extractFromPath_mem he⟩⟩

/-! ## Character facts for the normalizer -/

theorem charOfNatToNat (n : Nat) (h : n < 55296) : (Char.ofNat n).toNat = n := by
  unfold Char.ofNat
  rw [dif_pos (Or.inl h)]
  unfold Char.ofNatAux
  simp [Char.toNat, UInt32.toNat]

theorem isUpperIff (c : Char) : c.isUpper = true ↔ 65 ≤ c.toNat ∧ c.toNat ≤ 90 := by
  unfold Char.isUpper
  rw [Bool.and_eq_true, decide_eq_true_eq, decide_eq_true_eq]
  simp only [ge_iff_le, UInt32.le_def, BitVec.le_def, Char.toNat, UInt32.toNat]
  exact Iff.rfl

theorem toLower_isUpper (c : Char) : (c.toLower).isUpper = false := by
  show (if c.toNat ≥ 65 ∧ c.toNat ≤ 90 then Char.ofNat (c.toNat + 32) else c).isUpper = false
  by_cases h : c.toNat ≥ 65 ∧ c.toNat ≤ 90
  · rw [if_pos h]
    rw [Bool.eq_false_iff]
    intro hu
    rw [isUpperIff] at hu
    rw [charOfNatToNat _ (by omega)] at hu
    omega
  · rw [if_neg h]
    rw [Bool.eq_false_iff]
    intro hu
    rw [isUpperIff] at hu
    exact h ⟨hu.1, hu.2⟩

theorem toLower_eq_self {c : Char} (h : c.isUpper = false) : c.toLower = c := by
  show (if c.toNat ≥ 65 ∧ c.toNat ≤ 90 then Char.ofNat (c.toNat + 32) else c) = c
  rw [if_neg]
  intro hc
  have h2 := (isUpperIff c).mpr ⟨hc.1, hc.2⟩
  rw [h] at h2
  cases h2

theorem wordChar_not_ws {c : Char} (h : wordChar c = true) : pyWs c = false := by
  by_contra hw
  rw [Bool.not_eq_false] at hw
  unfold pyWs at hw
  simp only [Bool.or_eq_true, decide_eq_true_eq] at hw
  rcases hw with ((((h1 | h1) | h1) | h1) | h1) | h1 <;> (subst h1; revert h; decide)

theorem lowWord_char_class {c : Char} (h : lowWord c = true) :
    (c.isLower || c.isDigit || decide (c = '_')) = true := by
  unfold lowWord wordChar Char.isAlphanum Char.isAlpha at h
  rw [Bool.and_eq_true] at h
  obtain ⟨h1, h2⟩ := h
  rw [Bool.not_eq_true'] at h2
  simp only [Bool.or_eq_true] at h1 ⊢
  rcases h1 with ((hu | hl) | hd) | he
  · rw [h2] at hu
    cases hu
  · exact Or.inl (Or.inl hl)
  · exact Or.inl (Or.inr hd)
  · exact Or.inr he

theorem mem_dropTrailWs {c : Char} {l : List Char} (h : c ∈ dropTrailWs l) : c ∈ l := by
  unfold dropTrailWs at h
  rw [List.mem_reverse] at h
  have h2 := (@List.dropWhile_sublist Char l.reverse pyWs).mem h
  rw [List.mem_reverse] at h2
  exact h2

theorem mem_pyStripChars {c : Char} {l : List Char} (h : c ∈ pyStripChars l) : c ∈ l := by
  unfold pyStripChars at h
  exact (@List.dropWhile_sublist Char l pyWs).mem (mem_dropTrailWs h)

theorem pyLower_not_upper {c : Char} {l : List Char} (h : c ∈ pyLower l) :
    c.isUpper = false := by
  unfold pyLower at h
  obtain ⟨a, _, ha⟩ := List.mem_map.mp h
  rw [← ha]
  exact toLower_isUpper a

theorem pyLower_eq_self {l : List Char} (h : ∀ c ∈ l, c.isUpper = false) :
    pyLower l = l := by
  unfold pyLower
  rw [List.map_congr_left fun a ha => toLower_eq_self (h a ha)]
  exact List.map_id l

/-! ## Strip-and-collapse produces space-joined tokens -/

theorem joinToks_cons {a : List Char} {ts : List (List Char)} (h : ts ≠ []) :
    joinToks (a :: ts) = a ++ ' ' :: joinToks ts := by
  cases ts with
  | nil => exact absurd rfl h
  | cons b ts2 => rfl

theorem joinToks_ne_nil {ts : List (List Char)} (h : ts ≠ [])
    (ht : ∀ t ∈ ts, t ≠ []) : joinToks ts ≠ [] := by
  cases ts with
  | nil => exact absurd rfl h
  | cons t ts2 =>
    cases ts2 with
    | nil => exact ht t (List.mem_cons_self _ _)
    | cons u ts3 =>
      show t ++ ' ' :: joinToks (u :: ts3) ≠ []
      intro h0
      rcases List.append_eq_nil.mp h0 with ⟨_, h2⟩
      cases h2

theorem dropTrailWs_cons_not_ws {c : Char} (hc : pyWs c = false) (X : List Char) :
    dropTrailWs (c :: X) = c :: dropTrailWs X := by
  unfold dropTrailWs
  rw [List.reverse_cons, List.dropWhile_append]
  by_cases h : (X.reverse.dropWhile pyWs).isEmpty = true
  · rw [if_pos h]
    rw [List.isEmpty_iff] at h
    rw [h]
    simp [List.dropWhile_cons, hc]
  · rw [if_neg h]
    rw [List.reverse_append]
    simp

theorem dropTrailWs_cons_ws {c : Char} (hc : pyWs c = true) (X : List Char) :
    dropTrailWs (c :: X) =
      if dropTrailWs X = [] then [] else c :: dropTrailWs X := by
  unfold dropTrailWs
  rw [List.reverse_cons, List.dropWhile_append]
  by_cases h : (X.reverse.dropWhile pyWs).isEmpty = true
  · rw [if_pos h]
    rw [List.isEmpty_iff] at h
    rw [if_pos (by rw [h]; rfl)]
    simp [List.dropWhile_cons, hc]
  · rw [if_neg h]
    rw [List.isEmpty_iff] at h
    rw [if_neg (by
      intro h0
      rw [List.reverse_eq_nil_iff] at h0
      exact h h0)]
    rw [List.reverse_append]
    simp

theorem collapseGo_true_shape (cs : List Char) :
    collapseGo true cs = [] ∨
      ∃ c cs2, collapseGo true cs = c :: cs2 ∧ pyWs c = false := by
  induction cs with
  | nil => exact Or.inl rfl
  | cons c cs ih =>
    by_cases hw : pyWs c = true
    · unfold collapseGo
      rw [if_pos hw, if_pos rfl]
      exact ih
    · unfold collapseGo
      rw [if_neg hw]
      exact Or.inr ⟨c, _, rfl, Bool.eq_false_iff.mpr hw⟩

theorem splitWsGo_tok_ne_nil : ∀ (x cur t : List Char), t ∈ splitWsGo cur x → t ≠ [] := by
  intro x
  induction x with
  | nil =>
    intro cur t ht
    unfold splitWsGo at ht
    by_cases hc : cur.isEmpty = true
    · rw [if_pos hc] at ht
      cases ht
    · rw [if_neg hc] at ht
      rw [List.mem_singleton] at ht
      subst ht
      intro h0
      rw [List.reverse_eq_nil_iff] at h0
      rw [List.isEmpty_iff] at hc
      exact hc h0
  | cons c cs ih =>
    intro cur t ht
    unfold splitWsGo at ht
    by_cases hw : pyWs c = true
    · rw [if_pos hw] at ht
      by_cases hc : cur.isEmpty = true
      · rw [if_pos hc] at ht
        exact ih [] t ht
      · rw [if_neg hc] at ht
        rcases List.mem_cons.mp ht with h1 | h1
        · subst h1
          intro h0
          rw [List.reverse_eq_nil_iff] at h0
          rw [List.isEmpty_iff] at hc
          exact hc h0
        · exact ih [] t h1
    · rw [if_neg hw] at ht
      exact ih (c :: cur) t ht

theorem splitWsGo_chars : ∀ (x cur : List Char), (∀ c ∈ cur, pyWs c = false) →
    ∀ t ∈ splitWsGo cur x, ∀ c ∈ t, pyWs c = false ∧ (c ∈ cur ∨ c ∈ x) := by
  intro x
  induction x with
  | nil =>
    intro cur hcur t ht c hc
    unfold splitWsGo at ht
    by_cases hce : cur.isEmpty = true
    · rw [if_pos hce] at ht
      cases ht
    · rw [if_neg hce] at ht
      rw [List.mem_singleton] at ht
      subst ht
      rw [List.mem_reverse] at hc
      exact ⟨hcur c hc, Or.inl hc⟩
  | cons ch cs ih =>
    intro cur hcur t ht c hc
    unfold splitWsGo at ht
    by_cases hw : pyWs ch = true
    · rw [if_pos hw] at ht
      by_cases hce : cur.isEmpty = true
      · rw [if_pos hce] at ht
        obtain ⟨h1, h2⟩ := ih [] (by intro a ha; cases ha) t ht c hc
        refine ⟨h1, ?_⟩
        rcases h2 with h2 | h2
        · cases h2
        · exact Or.inr (List.mem_cons_of_mem ch h2)
      · rw [if_neg hce] at ht
        rcases List.mem_cons.mp ht with h1 | h1
        · subst h1
          rw [List.mem_reverse] at hc
          exact ⟨hcur c hc, Or.inl hc⟩
        · obtain ⟨h2, h3⟩ := ih [] (by intro a ha; cases ha) t h1 c hc
          refine ⟨h2, ?_⟩
          rcases h3 with h3 | h3
          · cases h3
          · exact Or.inr (List.mem_cons_of_mem ch h3)
    · rw [if_neg hw] at ht
      obtain ⟨h1, h2⟩ := ih (ch :: cur)
        (by
          intro a ha
          rcases List.mem_cons.mp ha with h3 | h3
          · subst h3
            exact Bool.eq_false_iff.mpr hw
          · exact hcur a h3) t ht c hc
      refine ⟨h1, ?_⟩
      rcases h2 with h2 | h2
      · rcases List.mem_cons.mp h2 with h3 | h3
        · subst h3
          exact Or.inr (List.mem_cons_self _ _)
        · exact Or.inl h3
      · exact Or.inr (List.mem_cons_of_mem ch h2)

theorem collapse_split_join : ∀ x : List Char,
    (∀ cur : List Char, cur ≠ [] →
      joinToks (splitWsGo cur x) = cur.reverse ++ dropTrailWs (collapseGo false x)) ∧
    dropTrailWs (collapseGo true x) = joinToks (splitWsGo [] x) := by
  intro x
  induction x with
  | nil =>
    constructor
    · intro cur hc
      unfold splitWsGo collapseGo
      rw [if_neg (show ¬cur.isEmpty = true by rw [List.isEmpty_iff]; exact hc)]
      show cur.reverse = cur.reverse ++ dropTrailWs []
      rw [show dropTrailWs [] = [] from rfl, List.append_nil]
    · rfl
  | cons ch cs ih =>
    obtain ⟨ih1, ih2⟩ := ih
    constructor
    · intro cur hc
      unfold splitWsGo collapseGo
      by_cases hw : pyWs ch = true
      · rw [if_pos hw, if_pos hw,
          if_neg (show ¬cur.isEmpty = true by rw [List.isEmpty_iff]; exact hc),
          if_neg (show ¬false = true by decide)]
        rw [dropTrailWs_cons_ws (show pyWs ' ' = true by decide)]
        by_cases hnil : dropTrailWs (collapseGo true cs) = []
        · rw [if_pos hnil]
          have h0 : joinToks (splitWsGo [] cs) = [] := by
            rw [← ih2]
            exact hnil
          have h1 : splitWsGo [] cs = [] := by
            by_contra h2
            exact joinToks_ne_nil h2 (fun t ht => splitWsGo_tok_ne_nil cs [] t ht) h0
          rw [h1]
          show cur.reverse = cur.reverse ++ []
          rw [List.append_nil]
        · rw [if_neg hnil]
          have h1 : splitWsGo [] cs ≠ [] := by
            intro h2
            apply hnil
            rw [ih2, h2]
            rfl
          rw [joinToks_cons h1, ih2]
      · rw [if_neg hw, if_neg hw]
        rw [ih1 (ch :: cur) (by intro h0; cases h0)]
        rw [dropTrailWs_cons_not_ws (Bool.eq_false_iff.mpr hw)]
        rw [List.reverse_cons, List.append_assoc]
        rfl
    · unfold splitWsGo collapseGo
      by_cases hw : pyWs ch = true
      · rw [if_pos hw, if_pos hw, if_pos rfl,
          if_pos (show ([] : List Char).isEmpty = true from rfl)]
        exact ih2
      · rw [if_neg hw, if_neg hw]
        rw [dropTrailWs_cons_not_ws (Bool.eq_false_iff.mpr hw)]
        rw [ih1 [ch] (by intro h0; cases h0)]
        rfl

theorem strip_collapse_eq_join (x : List Char) :
    pyStripChars (collapseWs x) = joinToks (splitWs x) := by
  unfold pyStripChars collapseWs splitWs
  cases x with
  | nil => rfl
  | cons ch cs =>
    unfold collapseGo splitWsGo
    by_cases hw : pyWs ch = true
    · rw [if_pos hw, if_pos hw, if_neg (show ¬false = true by decide),
        if_pos (show ([] : List Char).isEmpty = true from rfl)]
      rw [List.dropWhile_cons, if_pos (show pyWs ' ' = true by decide)]
      have hdw : (collapseGo true cs).dropWhile pyWs = collapseGo true cs := by
        rcases collapseGo_true_shape cs with h1 | ⟨c, cs2, h1, h2⟩
        · rw [h1]
          rfl
        · rw [h1, List.dropWhile_cons, if_neg (by rw [h2]; exact Bool.false_ne_true)]
      rw [hdw]
      exact (collapse_split_join cs).2
    · rw [if_neg hw, if_neg hw]
      rw [List.dropWhile_cons, if_neg hw]
      rw [dropTrailWs_cons_not_ws (Bool.eq_false_iff.mpr hw)]
      rw [(collapse_split_join cs).1 [ch] (by intro h0; cases h0)]
      rfl

/-! ## The legal-form scanner acts per token on canonical text -/

theorem getLastD_mem {l : List Char} (h : l ≠ []) (d : Char) : l.getLastD d ∈ l := by
  rw [List.getLastD_eq_getLast?, List.getLast?_eq_getLast l h]
  exact List.getLast_mem h

theorem getLastD_word {k : List Char} (hk : k ≠ [])
    (hw : ∀ c ∈ k, wordChar c = true) : wordChar (k.getLastD ' ') = true :=
  hw _ (getLastD_mem hk ' ')

theorem key_dotted_no_match {k t rest : List Char}
    (hd : '.' ∈ k) (hs : ' ' ∉ k)
    (ht : ∀ c ∈ t, wordChar c = true)
    (hr : rest = [] ∨ ∃ tl, rest = ' ' :: tl) :
    k.isPrefixOf (t ++ rest) = false := by
  by_contra hp
  rw [Bool.not_eq_false, List.isPrefixOf_iff_prefix] at hp
  by_cases hlen : k.length ≤ t.length
  · have hk : k = t.take k.length := by
      have h1 := List.prefix_iff_eq_take.mp hp
      rw [List.take_append_of_le_length hlen] at h1
      exact h1
    have h2 : '.' ∈ t := List.mem_of_mem_take (hk ▸ hd)
    exact absurd (ht '.' h2) (by decide)
  · push_neg at hlen
    rcases hr with hr | ⟨tl, hr⟩
    · subst hr
      rw [List.append_nil] at hp
      exact absurd hp.length_le (by omega)
    · subst hr
      obtain ⟨st, hst⟩ := hp
      have h2 : (k ++ st).get? t.length = some ' ' := by
        rw [hst, List.get?_append_right (le_refl _)]
        simp
      rw [List.get?_append hlen] at h2
      exact hs (List.get?_mem h2)

theorem key_word_match_iff {k t rest : List Char}
    (hk : k ≠ []) (hw : ∀ c ∈ k, wordChar c = true)
    (htn : t ≠ []) (ht : ∀ c ∈ t, wordChar c = true)
    (hr : rest = [] ∨ ∃ tl, rest = ' ' :: tl) :
    ((k.isPrefixOf (t ++ rest) &&
      bdryAfter k ((t ++ rest).drop k.length)) = true) ↔ k = t := by
  constructor
  · intro h
    rw [Bool.and_eq_true] at h
    obtain ⟨hp, hb⟩ := h
    rw [List.isPrefixOf_iff_prefix] at hp
    rcases Nat.lt_trichotomy k.length t.length with hlen | hlen | hlen
    · exfalso
      unfold bdryAfter at hb
      have hlast := getLastD_word hk hw
      have hnext : ∃ c cs2, (t ++ rest).drop k.length = c :: cs2 ∧ wordChar c = true := by
        have h1 : (t ++ rest).drop k.length = t.drop k.length ++ rest :=
          List.drop_append_of_le_length (le_of_lt hlen)
        rcases hdrop : t.drop k.length with _ | ⟨c, cs2⟩
        · exfalso
          have h2 := congrArg List.length hdrop
          rw [List.length_drop] at h2
          simp at h2
          omega
        · refine ⟨c, cs2 ++ rest, ?_, ?_⟩
          · rw [h1, hdrop]
            rfl
          · have h3 : c ∈ t.drop k.length := by
              rw [hdrop]
              exact List.mem_cons_self _ _
            exact ht c (List.mem_of_mem_drop h3)
      obtain ⟨c, cs2, h2, h3⟩ := hnext
      rw [h2, hlast] at hb
      dsimp only at hb
      rw [h3] at hb
      exact absurd hb (by decide)
    · have h1 := List.prefix_iff_eq_take.mp hp
      rw [hlen, List.take_left t rest] at h1
      exact h1
    · exfalso
      rcases hr with hr | ⟨tl, hr⟩
      · subst hr
        rw [List.append_nil] at hp
        exact absurd hp.length_le (by omega)
      · subst hr
        obtain ⟨st, hst⟩ := hp
        have h2 : (k ++ st).get? t.length = some ' ' := by
          rw [hst, List.get?_append_right (le_refl _)]
          simp
        rw [List.get?_append hlen] at h2
        exact absurd (hw ' ' (List.get?_mem h2)) (by decide)
  · intro h
    subst h
    rw [Bool.and_eq_true]
    refine ⟨?_, ?_⟩
    · rw [List.isPrefixOf_iff_prefix]
      exact ⟨rest, rfl⟩
    · rw [List.drop_left]
      unfold bdryAfter
      rw [getLastD_word hk hw]
      rcases hr with hr | ⟨tl, hr⟩ <;> subst hr
      · rfl
      · show (true != wordChar ' ') = true
        decide

set_option maxRecDepth 4000 in
theorem formsKeys_classified :
    ∀ p ∈ formsKeys, (p.1 ≠ [] ∧ p.1.all wordChar = true) ∨ ('.' ∈ p.1 ∧ ' ' ∉ p.1) := by
  decide

theorem tryKeys_canonical :
    ∀ (ks : List (List Char × List Char)),
      (∀ p ∈ ks, (p.1 ≠ [] ∧ p.1.all wordChar = true) ∨ ('.' ∈ p.1 ∧ ' ' ∉ p.1)) →
      ∀ (t rest : List Char), t ≠ [] → (∀ c ∈ t, wordChar c = true) →
      (rest = [] ∨ ∃ tl, rest = ' ' :: tl) →
      tryKeys ks (t ++ rest) =
        match ks.find? fun p => p.1 == t with
        | some p => some (p.2, true, rest)
        | none => none := by
  intro ks
  induction ks with
  | nil =>
    intro _ t rest _ _ _
    rfl
  | cons kv ks ih =>
    intro hcl t rest htn ht hr
    obtain ⟨k, v⟩ := kv
    have ihk := ih (fun p hp => hcl p (List.mem_cons_of_mem _ hp)) t rest htn ht hr
    unfold tryKeys
    rcases hcl (k, v) (List.mem_cons_self _ _) with ⟨hk, hw⟩ | ⟨hd, hs⟩
    · have hwm : ∀ c ∈ k, wordChar c = true := fun c hc => List.all_eq_true.mp hw c hc
      by_cases heq : k = t
      · subst heq
        have hcond := (key_word_match_iff hk hwm htn ht hr).mpr rfl
        rw [Bool.and_eq_true] at hcond
        have hne : k.isEmpty = false := by
          rw [Bool.eq_false_iff]
          intro h1
          exact hk (List.isEmpty_iff.mp h1)
        rw [if_pos (by
          rw [Bool.and_eq_true, Bool.and_eq_true, hne]
          exact ⟨⟨rfl, hcond.1⟩, hcond.2⟩)]
        rw [List.find?_cons_of_pos _ (by rw [beq_iff_eq])]
        rw [getLastD_word hk hwm, List.drop_left]
      · have hcf : (k.isPrefixOf (t ++ rest) &&
            bdryAfter k ((t ++ rest).drop k.length)) = false := by
          rw [Bool.eq_false_iff]
          intro h1
          exact heq ((key_word_match_iff hk hwm htn ht hr).mp h1)
        rw [if_neg (by
          rw [Bool.and_eq_true, Bool.and_eq_true]
          rintro ⟨⟨_, h2⟩, h3⟩
          rw [h2, h3] at hcf
          exact absurd hcf (by decide))]
        rw [List.find?_cons_of_neg _ (by
          rw [beq_iff_eq]
          exact heq)]
        exact ihk
    · have hnp := key_dotted_no_match hd hs ht hr
      rw [if_neg (by
        rw [Bool.and_eq_true, Bool.and_eq_true]
        rintro ⟨⟨_, h2⟩, _⟩
        rw [hnp] at h2
        cases h2)]
      rw [List.find?_cons_of_neg _ (by
        rw [beq_iff_eq]
        intro h1
        subst h1
        exact absurd (ht '.' hd) (by decide))]
      exact ihk

theorem substFormsGo_nil (fuel : Nat) (b : Bool) : substFormsGo fuel b [] = [] := by
  cases fuel <;> rfl

theorem substFormsGo_copy_word : ∀ u : List Char, (∀ c ∈ u, wordChar c = true) →
    ∀ (fuel : Nat) (rest : List Char), (u ++ rest).length + 1 ≤ fuel →
    substFormsGo fuel true (u ++ rest) = u ++ substFormsGo (fuel - u.length) true rest := by
  intro u
  induction u with
  | nil =>
    intro _ fuel rest _
    rfl
  | cons c u ih =>
    intro hu fuel rest hf
    cases fuel with
    | zero =>
      exfalso
      simp [List.length_append] at hf
    | succ f =>
      have hstep : substFormsGo (f + 1) true ((c :: u) ++ rest) =
          c :: substFormsGo f (wordChar c) (u ++ rest) := rfl
      rw [hstep, hu c (List.mem_cons_self _ _)]
      rw [ih (fun a ha => hu a (List.mem_cons_of_mem _ ha)) f rest
        (by simp [List.length_append] at hf ⊢; omega)]
      simp only [List.length_cons]
      rw [show f + 1 - (u.length + 1) = f - u.length by omega]
      rfl

theorem substFormsGo_tokens : ∀ ts : List (List Char), (∀ t ∈ ts, goodTok t = true) →
    ∀ fuel : Nat, (joinToks ts).length + 1 ≤ fuel →
    substFormsGo fuel false (joinToks ts) = joinToks (ts.map formApplyTok) := by
  intro ts
  induction ts with
  | nil =>
    intro _ fuel _
    exact substFormsGo_nil fuel false
  | cons t ts ih =>
    intro hts fuel hf
    have htg := hts t (List.mem_cons_self _ _)
    unfold goodTok at htg
    rw [Bool.and_eq_true] at htg
    obtain ⟨htn0, htlw⟩ := htg
    have htn : t ≠ [] := by
      intro h0
      rw [h0] at htn0
      cases htn0
    have htw : ∀ c ∈ t, wordChar c = true := by
      intro c hc
      have h1 := List.all_eq_true.mp htlw c hc
      unfold lowWord at h1
      rw [Bool.and_eq_true] at h1
      exact h1.1
    obtain ⟨c, u, rfl⟩ := List.exists_cons_of_ne_nil htn
    cases ts with
    | nil =>
      have key := tryKeys_canonical formsKeys formsKeys_classified (c :: u) [] htn htw
        (Or.inl rfl)
      rw [List.append_nil] at key
      cases fuel with
      | zero =>
        exfalso
        have hf2 : (c :: u).length + 1 ≤ 0 := hf
        simp at hf2
      | succ f =>
        have hf2 : (c :: u).length + 1 ≤ f + 1 := hf
        show substFormsGo (f + 1) false (c :: u) = joinToks [formApplyTok (c :: u)]
        have hstep : substFormsGo (f + 1) false (c :: u) =
            (match tryKeys formsKeys (c :: u) with
             | some (v, lw, r) => v ++ substFormsGo f lw r
             | none => c :: substFormsGo f (wordChar c) u) := rfl
        rw [hstep, key]
        cases hfind : formsKeys.find? fun p => p.1 == c :: u with
        | none =>
          dsimp only
          rw [htw c (List.mem_cons_self _ _)]
          have hcopy := substFormsGo_copy_word u
            (fun a ha => htw a (List.mem_cons_of_mem _ ha)) f []
            (by simp [List.length_append] at hf2 ⊢; omega)
          rw [List.append_nil] at hcopy
          rw [hcopy, substFormsGo_nil, List.append_nil]
          show c :: u = joinToks [formApplyTok (c :: u)]
          unfold formApplyTok formFind
          rw [hfind]
          rfl
        | some p =>
          dsimp only
          rw [substFormsGo_nil, List.append_nil]
          show p.2 = joinToks [formApplyTok (c :: u)]
          unfold formApplyTok formFind
          rw [hfind]
          rfl
    | cons t2 ts2 =>
      have hrest : joinToks ((c :: u) :: t2 :: ts2) =
          (c :: u) ++ ' ' :: joinToks (t2 :: ts2) := joinToks_cons (by intro h0; cases h0)
      have key := tryKeys_canonical formsKeys formsKeys_classified (c :: u)
        (' ' :: joinToks (t2 :: ts2)) htn htw (Or.inr ⟨_, rfl⟩)
      have hlen : (joinToks ((c :: u) :: t2 :: ts2)).length =
          u.length + (joinToks (t2 :: ts2)).length + 2 := by
        rw [hrest]
        simp [List.length_append]
        omega
      cases fuel with
      | zero =>
        exfalso
        omega
      | succ f =>
        rw [hrest]
        have hstep : substFormsGo (f + 1) false ((c :: u) ++ ' ' :: joinToks (t2 :: ts2)) =
            (match tryKeys formsKeys ((c :: u) ++ ' ' :: joinToks (t2 :: ts2)) with
             | some (v, lw, r) => v ++ substFormsGo f lw r
             | none =>
               c :: substFormsGo f (wordChar c) (u ++ ' ' :: joinToks (t2 :: ts2))) := rfl
        rw [hstep, key]
        have hle : (joinToks (t2 :: ts2)).length + 1 ≤ f - u.length - 1 := by
          rw [hlen] at hf
          omega
        cases hfind : formsKeys.find? fun p => p.1 == c :: u with
        | none =>
          dsimp only
          rw [htw c (List.mem_cons_self _ _)]
          rw [substFormsGo_copy_word u (fun a ha => htw a (List.mem_cons_of_mem _ ha)) f
            (' ' :: joinToks (t2 :: ts2))
            (by rw [hlen] at hf; simp [List.length_append]; omega)]
          have hsp : substFormsGo (f - u.length) true (' ' :: joinToks (t2 :: ts2)) =
              ' ' :: substFormsGo (f - u.length - 1) false (joinToks (t2 :: ts2)) := by
            rcases hfu : f - u.length with _ | f2
            · exfalso
              omega
            · rfl
          rw [hsp]
          rw [ih (fun a ha => hts a (List.mem_cons_of_mem _ ha)) (f - u.length - 1) hle]
          rw [show joinToks (List.map formApplyTok ((c :: u) :: t2 :: ts2)) =
            formApplyTok (c :: u) ++ ' ' :: joinToks ((t2 :: ts2).map formApplyTok) from
            joinToks_cons (by intro h0; cases h0)]
          show c :: (u ++ ' ' :: joinToks ((t2 :: ts2).map formApplyTok)) =
            formApplyTok (c :: u) ++ ' ' :: joinToks ((t2 :: ts2).map formApplyTok)
          unfold formApplyTok formFind
          rw [hfind]
          rfl
        | some p =>
          dsimp only
          have hsp : substFormsGo f true (' ' :: joinToks (t2 :: ts2)) =
              ' ' :: substFormsGo (f - 1) false (joinToks (t2 :: ts2)) := by
            rcases hfu : f with _ | f2
            · exfalso
              omega
            · rfl
          rw [hsp]
          rw [ih (fun a ha => hts a (List.mem_cons_of_mem _ ha)) (f - 1)
            (by rw [hlen] at hf; omega)]
          rw [show joinToks (List.map formApplyTok ((c :: u) :: t2 :: ts2)) =
            formApplyTok (c :: u) ++ ' ' :: joinToks ((t2 :: ts2).map formApplyTok) from
            joinToks_cons (by intro h0; cases h0)]
          show p.2 ++ ' ' :: joinToks ((t2 :: ts2).map formApplyTok) =
            formApplyTok (c :: u) ++ ' ' :: joinToks ((t2 :: ts2).map formApplyTok)
          unfold formApplyTok formFind
          rw [hfind]
          rfl

/-- `_normalize_company_forms` on canonical text rewrites whole tokens via
the first-matching-key lookup. -/
theorem substForms_tokens (ts : List (List Char)) (hts : ∀ t ∈ ts, goodTok t = true) :
    substForms (joinToks ts) = joinToks (ts.map formApplyTok) :=
  substFormsGo_tokens ts hts _ (le_refl _)

/-! ## Canonical decomposition of the normalizer output -/

theorem lowWord_word {c : Char} (h : lowWord c = true) : wordChar c = true := by
  unfold lowWord at h
  rw [Bool.and_eq_true] at h
  exact h.1

theorem lowWord_not_upper {c : Char} (h : lowWord c = true) : c.isUpper = false := by
  unfold lowWord at h
  rw [Bool.and_eq_true] at h
  have h2 := h.2
  rw [Bool.not_eq_true'] at h2
  exact h2

theorem lowWord_ne_space {c : Char} (h : lowWord c = true) : (c == ' ') = false := by
  rw [beq_eq_false_iff_ne]
  intro h0
  subst h0
  exact absurd (lowWord_word h) (by decide)

theorem subSpecial_chars {c : Char} {l : List Char} (h : c ∈ subSpecial l) :
    (wordChar c || pyWs c) = true ∧ (c = ' ' ∨ c ∈ l) := by
  unfold subSpecial at h
  obtain ⟨a, ha, hc⟩ := List.mem_map.mp h
  by_cases hw : (wordChar a || pyWs a) = true
  · rw [if_pos hw] at hc
    subst hc
    exact ⟨hw, Or.inr ha⟩
  · rw [if_neg hw] at hc
    subst hc
    exact ⟨by decide, Or.inl rfl⟩

theorem tryKeys_shape : ∀ {ks : List (List Char × List Char)} {l v : List Char} {lw : Bool}
    {rest : List Char}, tryKeys ks l = some (v, lw, rest) →
    (∃ p ∈ ks, p.2 = v) ∧ ∃ n, rest = l.drop n := by
  intro ks
  induction ks with
  | nil =>
    intro l v lw rest h
    cases h
  | cons kv ks ih =>
    intro l v lw rest h
    obtain ⟨k, w⟩ := kv
    unfold tryKeys at h
    by_cases hc : (!k.isEmpty && k.isPrefixOf l && bdryAfter k (l.drop k.length)) = true
    · rw [if_pos hc] at h
      injection h with h1
      rw [Prod.mk.injEq, Prod.mk.injEq] at h1
      obtain ⟨h2, _, h4⟩ := h1
      exact ⟨⟨(k, w), List.mem_cons_self _ _, h2⟩, k.length, h4.symm⟩
    · rw [if_neg hc] at h
      obtain ⟨⟨p, hp, hv⟩, n, hn⟩ := ih h
      exact ⟨⟨p, List.mem_cons_of_mem _ hp, hv⟩, n, hn⟩

theorem substFormsGo_chars : ∀ (fuel : Nat) (b : Bool) (l : List Char) (c : Char),
    c ∈ substFormsGo fuel b l → c ∈ l ∨ ∃ p ∈ formsKeys, c ∈ p.2 := by
  intro fuel
  induction fuel with
  | zero =>
    intro b l c h
    exact Or.inl h
  | succ f ih =>
    intro b l c h
    cases l with
    | nil => cases h
    | cons ch cs =>
      cases b with
      | true =>
        have hstep : substFormsGo (f + 1) true (ch :: cs) =
            ch :: substFormsGo f (wordChar ch) cs := rfl
        rw [hstep] at h
        rcases List.mem_cons.mp h with h1 | h1
        · exact Or.inl (by rw [h1]; exact List.mem_cons_self _ _)
        · rcases ih _ cs c h1 with h2 | h2
          · exact Or.inl (List.mem_cons_of_mem _ h2)
          · exact Or.inr h2
      | false =>
        have hstep : substFormsGo (f + 1) false (ch :: cs) =
            (match tryKeys formsKeys (ch :: cs) with
             | some (v, lw, r) => v ++ substFormsGo f lw r
             | none => ch :: substFormsGo f (wordChar ch) cs) := rfl
        rw [hstep] at h
        cases htk : tryKeys formsKeys (ch :: cs) with
        | some vr =>
          obtain ⟨v, lw, rest⟩ := vr
          rw [htk] at h
          dsimp only at h
          rcases List.mem_append.mp h with h1 | h1
          · obtain ⟨⟨p, hp, hv⟩, _⟩ := tryKeys_shape htk
            refine Or.inr ⟨p, hp, ?_⟩
            rw [hv]
            exact h1
          · rcases ih _ rest c h1 with h2 | h2
            · obtain ⟨_, n, hn⟩ := tryKeys_shape htk
              rw [hn] at h2
              exact Or.inl (List.mem_of_mem_drop h2)
            · exact Or.inr h2
        | none =>
          rw [htk] at h
          dsimp only at h
          rcases List.mem_cons.mp h with h1 | h1
          · exact Or.inl (by rw [h1]; exact List.mem_cons_self _ _)
          · rcases ih _ cs c h1 with h2 | h2
            · exact Or.inl (List.mem_cons_of_mem _ h2)
            · exact Or.inr h2

set_option maxRecDepth 4000 in
theorem formsKeys_values_lowWord : ∀ p ∈ formsKeys, ∀ c ∈ p.2, lowWord c = true := by
  decide

set_option maxRecDepth 4000 in
theorem formsKeys_values_goodTok : ∀ p ∈ formsKeys, goodTok p.2 = true := by
  decide

/-- Every `normalize` output decomposes into good tokens joined by single
spaces. -/
theorem normChars_canonical (l : List Char) :
    ∃ ts, (∀ t ∈ ts, goodTok t = true) ∧ normChars l = joinToks ts := by
  refine ⟨splitWs (subSpecial (substForms (pyStripChars (pyLower l)))), ?_, ?_⟩
  · intro t ht
    unfold goodTok
    rw [Bool.and_eq_true]
    have htn := splitWsGo_tok_ne_nil _ [] t ht
    constructor
    · have h1 : t.isEmpty = false := by
        rw [Bool.eq_false_iff]
        intro h2
        exact htn (List.isEmpty_iff.mp h2)
      rw [h1]
      rfl
    · rw [List.all_eq_true]
      intro c hc
      obtain ⟨hws, hmem⟩ := splitWsGo_chars _ [] (by intro a ha; cases ha) t ht c hc
      rcases hmem with h1 | h1
      · cases h1
      · obtain ⟨hcls, hor⟩ := subSpecial_chars h1
        unfold lowWord
        rw [Bool.and_eq_true]
        constructor
        · rw [Bool.or_eq_true] at hcls
          rcases hcls with h2 | h2
          · exact h2
          · rw [hws] at h2
            cases h2
        · rw [Bool.not_eq_true']
          rcases hor with h2 | h2
          · subst h2
            decide
          · rcases substFormsGo_chars _ _ _ c h2 with h3 | ⟨p, hp, h3⟩
            · exact pyLower_not_upper (mem_pyStripChars h3)
            · exact lowWord_not_upper (formsKeys_values_lowWord p hp c h3)
  · exact strip_collapse_eq_join _

/-! ## `normalize` acts per token on its own output -/

theorem joinToks_head {ts : List (List Char)} (hts : ∀ t ∈ ts, goodTok t = true)
    (h : ts ≠ []) : ∃ c cs, joinToks ts = c :: cs ∧ lowWord c = true := by
  cases ts with
  | nil => exact absurd rfl h
  | cons t ts2 =>
    have htg := hts t (List.mem_cons_self _ _)
    unfold goodTok at htg
    rw [Bool.and_eq_true] at htg
    obtain ⟨h1, h2⟩ := htg
    have htn : t ≠ [] := by
      intro h0
      rw [h0] at h1
      cases h1
    obtain ⟨c, u, rfl⟩ := List.exists_cons_of_ne_nil htn
    have hcw := List.all_eq_true.mp h2 c (List.mem_cons_self _ _)
    cases ts2 with
    | nil => exact ⟨c, u, rfl, hcw⟩
    | cons t2 ts3 =>
      refine ⟨c, u ++ ' ' :: joinToks (t2 :: ts3), ?_, hcw⟩
      rw [joinToks_cons (by intro h0; cases h0)]
      rfl

theorem getLastD_append {t x : List Char} (h : x ≠ []) (d : Char) :
    (t ++ x).getLastD d = x.getLastD d := by
  cases x with
  | nil => exact absurd rfl h
  | cons y ys =>
    rw [List.getLastD_eq_getLast?, List.getLast?_append_of_ne_nil _ h,
      ← List.getLastD_eq_getLast?]

theorem joinToks_last {ts : List (List Char)} (hts : ∀ t ∈ ts, goodTok t = true)
    (h : ts ≠ []) : lowWord ((joinToks ts).getLastD 'a') = true := by
  induction ts with
  | nil => exact absurd rfl h
  | cons t ts2 ih =>
    have htg := hts t (List.mem_cons_self _ _)
    unfold goodTok at htg
    rw [Bool.and_eq_true] at htg
    obtain ⟨h1, h2⟩ := htg
    have htn : t ≠ [] := by
      intro h0
      rw [h0] at h1
      cases h1
    cases ts2 with
    | nil =>
      show lowWord (t.getLastD 'a') = true
      exact List.all_eq_true.mp h2 _ (getLastD_mem htn 'a')
    | cons t2 ts3 =>
      rw [joinToks_cons (by intro h0; cases h0)]
      have hne : joinToks (t2 :: ts3) ≠ [] := by
        obtain ⟨c, cs, hj, _⟩ :=
          joinToks_head (fun a ha => hts a (List.mem_cons_of_mem _ ha))
            (by intro h0; cases h0)
        rw [hj]
        intro h0
        cases h0
      rw [getLastD_append (show ' ' :: joinToks (t2 :: ts3) ≠ [] by intro h0; cases h0)]
      rw [show (' ' :: joinToks (t2 :: ts3)) = [' '] ++ joinToks (t2 :: ts3) from rfl]
      rw [getLastD_append hne]
      exact ih (fun a ha => hts a (List.mem_cons_of_mem _ ha)) (by intro h0; cases h0)

theorem dropTrailWs_eq_self {l : List Char} (h : pyWs (l.getLastD 'a') = false) :
    dropTrailWs l = l := by
  cases hl : l.reverse with
  | nil =>
    have h0 : l = [] := by
      rw [← List.reverse_reverse l, hl]
      rfl
    subst h0
    rfl
  | cons c cs =>
    have hlc : l.getLastD 'a' = c := by
      rw [← List.reverse_reverse l, hl, List.reverse_cons,
        getLastD_append (by intro h0; cases h0)]
      rfl
    rw [hlc] at h
    unfold dropTrailWs
    rw [hl, List.dropWhile_cons, if_neg (by rw [h]; exact Bool.false_ne_true), ← hl,
      List.reverse_reverse]

theorem pyStripChars_join {ts : List (List Char)} (hts : ∀ t ∈ ts, goodTok t = true) :
    pyStripChars (joinToks ts) = joinToks ts := by
  cases hts2 : ts with
  | nil => rfl
  | cons t ts2 =>
    obtain ⟨c, cs, hj, hc⟩ := joinToks_head hts (by rw [hts2]; intro h0; cases h0)
    rw [← hts2, hj]
    unfold pyStripChars
    rw [List.dropWhile_cons,
      if_neg (by rw [wordChar_not_ws (lowWord_word hc)]; exact Bool.false_ne_true)]
    rw [← hj]
    refine dropTrailWs_eq_self ?_
    rw [hts2]
    exact wordChar_not_ws (lowWord_word (joinToks_last (by rw [← hts2]; exact hts)
      (by intro h0; cases h0)))

theorem joinToks_chars {ts : List (List Char)} (hts : ∀ t ∈ ts, goodTok t = true) :
    ∀ c ∈ joinToks ts, lowWord c = true ∨ c = ' ' := by
  induction ts with
  | nil =>
    intro c hc
    cases hc
  | cons t ts2 ih =>
    intro c hc
    have htg := hts t (List.mem_cons_self _ _)
    unfold goodTok at htg
    rw [Bool.and_eq_true] at htg
    cases ts2 with
    | nil => exact Or.inl (List.all_eq_true.mp htg.2 c hc)
    | cons t2 ts3 =>
      rw [joinToks_cons (by intro h0; cases h0)] at hc
      rcases List.mem_append.mp hc with h1 | h1
      · exact Or.inl (List.all_eq_true.mp htg.2 c h1)
      · rcases List.mem_cons.mp h1 with h2 | h2
        · exact Or.inr h2
        · exact ih (fun a ha => hts a (List.mem_cons_of_mem _ ha)) c h2

theorem subSpecial_eq_self {l : List Char} (h : ∀ c ∈ l, (wordChar c || pyWs c) = true) :
    subSpecial l = l := by
  unfold subSpecial
  rw [List.map_congr_left fun a ha => if_pos (h a ha)]
  exact List.map_id l

theorem collapseGo_cons_not_ws {c : Char} (hc : pyWs c = false) (b : Bool)
    (cs : List Char) : collapseGo b (c :: cs) = c :: collapseGo false cs := by
  conv_lhs => unfold collapseGo
  rw [if_neg (by rw [hc]; exact Bool.false_ne_true)]

theorem collapseGo_word_run : ∀ t : List Char, (∀ c ∈ t, pyWs c = false) → t ≠ [] →
    ∀ (b : Bool) (rest : List Char), collapseGo b (t ++ rest) = t ++ collapseGo false rest := by
  intro t
  induction t with
  | nil =>
    intro _ h
    exact absurd rfl h
  | cons c u ih =>
    intro ht _ b rest
    rw [show (c :: u) ++ rest = c :: (u ++ rest) from rfl]
    rw [collapseGo_cons_not_ws (ht c (List.mem_cons_self _ _))]
    by_cases hu : u = []
    · subst hu
      rfl
    · rw [ih (fun a ha => ht a (List.mem_cons_of_mem _ ha)) hu false rest]
      rfl

theorem collapseWs_join {ts : List (List Char)} (hts : ∀ t ∈ ts, goodTok t = true) :
    collapseWs (joinToks ts) = joinToks ts := by
  unfold collapseWs
  induction ts with
  | nil => rfl
  | cons t ts2 ih =>
    have htg := hts t (List.mem_cons_self _ _)
    unfold goodTok at htg
    rw [Bool.and_eq_true] at htg
    have htn : t ≠ [] := by
      intro h0
      rw [h0] at htg
      rcases htg with ⟨h1, _⟩
      cases h1
    have hnw : ∀ c ∈ t, pyWs c = false :=
      fun c hc => wordChar_not_ws (lowWord_word (List.all_eq_true.mp htg.2 c hc))
    cases ts2 with
    | nil =>
      have h1 := collapseGo_word_run t hnw htn false []
      rw [List.append_nil] at h1
      show collapseGo false t = t
      rw [h1]
      rw [show collapseGo false [] = [] from rfl, List.append_nil]
    | cons t2 ts3 =>
      rw [joinToks_cons (by intro h0; cases h0)]
      rw [collapseGo_word_run t hnw htn false (' ' :: joinToks (t2 :: ts3))]
      obtain ⟨c, cs, hj, hc⟩ :=
        joinToks_head (fun a ha => hts a (List.mem_cons_of_mem _ ha))
          (by intro h0; cases h0)
      have hstep : collapseGo false (' ' :: joinToks (t2 :: ts3)) =
          ' ' :: collapseGo true (joinToks (t2 :: ts3)) := by
        conv_lhs => unfold collapseGo
        rw [if_pos (show pyWs ' ' = true by decide), if_neg (show ¬false = true by decide)]
      rw [hstep]
      have hstep2 : collapseGo true (joinToks (t2 :: ts3)) =
          collapseGo false (joinToks (t2 :: ts3)) := by
        rw [hj, collapseGo_cons_not_ws (wordChar_not_ws (lowWord_word hc)),
          collapseGo_cons_not_ws (wordChar_not_ws (lowWord_word hc))]
      rw [hstep2, ih (fun a ha => hts a (List.mem_cons_of_mem _ ha))]

theorem formApplyTok_good {t : List Char} (h : goodTok t = true) :
    goodTok (formApplyTok t) = true := by
  unfold formApplyTok formFind
  cases hf : formsKeys.find? fun p => p.1 == t with
  | none => exact h
  | some p => exact formsKeys_values_goodTok p (List.mem_of_find?_eq_some hf)

set_option maxRecDepth 8000 in
theorem formsKeys_values_fixed : ∀ p ∈ formsKeys, formApplyTok p.2 = p.2 := by
  decide

theorem formApplyTok_idem (t : List Char) :
    formApplyTok (formApplyTok t) = formApplyTok t := by
  cases hf : formFind t with
  | none =>
    have h1 : formApplyTok t = t := by
      unfold formApplyTok
      rw [hf]
      rfl
    rw [h1]
    exact h1
  | some v =>
    have h1 : formApplyTok t = v := by
      unfold formApplyTok
      rw [hf]
      rfl
    rw [h1]
    unfold formFind at hf
    obtain ⟨p, hp1, hp2⟩ := Option.map_eq_some'.mp hf
    rw [← hp2]
    exact formsKeys_values_fixed p (List.mem_of_find?_eq_some hp1)

/-- On its own canonical output, `normalize` reduces to the per-token
legal-form lookup. -/
theorem normChars_join {ts : List (List Char)} (hts : ∀ t ∈ ts, goodTok t = true) :
    normChars (joinToks ts) = joinToks (ts.map formApplyTok) := by
  have hmap : ∀ t ∈ ts.map formApplyTok, goodTok t = true := by
    intro t ht
    obtain ⟨a, ha, rfl⟩ := List.mem_map.mp ht
    exact formApplyTok_good (hts a ha)
  have hupper : ∀ c ∈ joinToks ts, c.isUpper = false := by
    intro c hc
    rcases joinToks_chars hts c hc with h1 | h1
    · exact lowWord_not_upper h1
    · subst h1
      decide
  have hclass : ∀ c ∈ joinToks (ts.map formApplyTok), (wordChar c || pyWs c) = true := by
    intro c hc
    rw [Bool.or_eq_true]
    rcases joinToks_chars hmap c hc with h1 | h1
    · exact Or.inl (lowWord_word h1)
    · subst h1
      exact Or.inr (by decide)
  unfold normChars
  rw [pyLower_eq_self hupper, pyStripChars_join hts, substForms_tokens ts hts,
    subSpecial_eq_self hclass, collapseWs_join hmap, pyStripChars_join hmap]

/-! ## Whitespace invariants of the canonical form -/

theorem noDoubleSpace_append {t : List Char} (ht : ∀ c ∈ t, (c == ' ') = false) :
    ∀ {rest : List Char}, noDoubleSpace rest = true → noDoubleSpace (t ++ rest) = true := by
  induction t with
  | nil =>
    intro rest h
    exact h
  | cons c u ih =>
    intro rest h
    have h2 := ih (fun a ha => ht a (List.mem_cons_of_mem _ ha)) h
    show noDoubleSpace (c :: (u ++ rest)) = true
    cases hur : u ++ rest with
    | nil => rfl
    | cons c2 X =>
      show (!(c == ' ' && c2 == ' ') && noDoubleSpace (c2 :: X)) = true
      rw [ht c (List.mem_cons_self _ _), ← hur, h2]
      rfl

theorem joinToks_noDouble {ts : List (List Char)} (hts : ∀ t ∈ ts, goodTok t = true) :
    noDoubleSpace (joinToks ts) = true := by
  induction ts with
  | nil => rfl
  | cons t ts2 ih =>
    have htg := hts t (List.mem_cons_self _ _)
    unfold goodTok at htg
    rw [Bool.and_eq_true] at htg
    have htne : ∀ c ∈ t, (c == ' ') = false :=
      fun c hc => lowWord_ne_space (List.all_eq_true.mp htg.2 c hc)
    cases ts2 with
    | nil =>
      have h1 := noDoubleSpace_append htne (show noDoubleSpace [] = true from rfl)
      rw [List.append_nil] at h1
      exact h1
    | cons t2 ts3 =>
      rw [joinToks_cons (by intro h0; cases h0)]
      refine noDoubleSpace_append htne ?_
      obtain ⟨c, cs, hj, hc⟩ :=
        joinToks_head (fun a ha => hts a (List.mem_cons_of_mem _ ha))
          (by intro h0; cases h0)
      rw [hj]
      show (!(' ' == ' ' && c == ' ') && noDoubleSpace (c :: cs)) = true
      rw [lowWord_ne_space hc, ← hj, ih (fun a ha => hts a (List.mem_cons_of_mem _ ha))]
      rfl

theorem joinToks_noEdge {ts : List (List Char)} (hts : ∀ t ∈ ts, goodTok t = true) :
    noEdgeSpace (joinToks ts) = true := by
  cases hts2 : ts with
  | nil => rfl
  | cons t ts2 =>
    rw [← hts2]
    unfold noEdgeSpace
    obtain ⟨c, cs, hj, hc⟩ := joinToks_head hts (by rw [hts2]; intro h0; cases h0)
    have hh : (joinToks ts).headD 'a' = c := by
      rw [hj]
      rfl
    have hl := joinToks_last hts (by rw [hts2]; intro h0; cases h0)
    rw [hh, lowWord_ne_space hc, lowWord_ne_space hl]
    rfl

/-! ## Claim C3: normalize is idempotent from the second application on -/

/-- **C3** (amended).  A single application of `normalize` need not be a
fixed point (removing a dot can glue fragments into a word that the
legal-form pass then rewrites on the next call), but the second application
is: `normalize (normalize (normalize s)) = normalize (normalize s)` for
every string, and no output of `normalize` ever contains two consecutive
spaces. -/
theorem c3_normalize_idempotent_from_second_pass (s : String) :
    normalize (normalize (normalize s)) = normalize (normalize s) ∧
    noDoubleSpace (normalize s).data = true := by
  obtain ⟨ts, hts, hjoin⟩ := normChars_canonical s.data
  have h1 : (normalize s).data = joinToks ts := hjoin
  have hmap : ∀ t ∈ ts.map formApplyTok, goodTok t = true := by
    intro t ht
    obtain ⟨a, ha, rfl⟩ := List.mem_map.mp ht
    exact formApplyTok_good (hts a ha)
  constructor
  · have h2 : normalize (normalize s) = String.mk (joinToks (ts.map formApplyTok)) := by
      show String.mk (normChars (normalize s).data) = _
      rw [h1, normChars_join hts]
    have h3 : normalize (normalize (normalize s)) =
        String.mk (joinToks ((ts.map formApplyTok).map formApplyTok)) := by
      show String.mk (normChars (normalize (normalize s)).data) = _
      rw [h2]
      show String.mk (normChars (joinToks (ts.map formApplyTok))) = _
      rw [normChars_join hmap]
    rw [h3, h2]
    congr 1
    rw [List.map_map]
    exact congrArg joinToks (List.map_congr_left fun a _ => formApplyTok_idem a)
  · rw [h1]
    exact joinToks_noDouble hts

set_option maxRecDepth 8000 in
theorem c3_single_normalize_not_idempotent :
    normalize (normalize "inc.orporated") ≠ normalize "inc.orporated" ∧
    normalize "inc.orporated" = "incorporated" ∧
    normalize "incorporated" = "inc" := by
  refine ⟨by decide, by decide, by decide⟩

/-! ## Claim C8: the characters of normalize output -/

/-- **C8** (amended).  Every character of a `normalize` output is a
lowercase letter, a digit, an underscore (Python `\w` keeps `_`, which the
claim's "alphanumeric" missed), or a separating space; spaces never double
up and never touch either end. -/
theorem c8_canonical_output (s : String) :
    (∀ c ∈ (normalize s).data,
      (c.isLower || c.isDigit || decide (c = '_') || decide (c = ' ')) = true) ∧
    noDoubleSpace (normalize s).data = true ∧
    noEdgeSpace (normalize s).data = true := by
  obtain ⟨ts, hts, hjoin⟩ := normChars_canonical s.data
  have h1 : (normalize s).data = joinToks ts := hjoin
  rw [h1]
  refine ⟨?_, joinToks_noDouble hts, joinToks_noEdge hts⟩
  intro c hc
  rw [Bool.or_eq_true]
  rcases joinToks_chars hts c hc with h2 | h2
  · exact Or.inl (lowWord_char_class h2)
  · subst h2
    exact Or.inr (by decide)

set_option maxRecDepth 8000 in
theorem c8_underscore_survives :
    normalize "a_b" = "a_b" ∧ '_' ∈ (normalize "a_b").data ∧
    ('_'.isAlphanum || decide ('_' = ' ')) = false := by
  refine ⟨by decide, by decide, by decide⟩

end Organizer
